import Mathlib

/-!
Verification of the `leb.imajin` fluorescence-microscopy simulation engine.

This file shallowly embeds the core of the repository in Lean 4 and settles the
frozen claims about it.  Conventions used throughout:

* Python/NumPy floating-point numbers are embedded as exact rationals (`ℚ`).
  The algorithms are specified in exact arithmetic by the project spec; the
  float64 representation is not modelled.
* NumPy arrays are embedded as lists (`List ℚ`) and row-major lists of rows
  (`List (List ℚ)`).
* The shared random generator is embedded as an oracle: a function from a draw
  counter (number of generator calls consumed so far) and a component index to
  the realised draw.  Stateful code threads explicit state.
* `np.inf` appears only in state-machine event times; those are embedded as
  `WithTop ℚ`.
* Fallible code (validation `raise`, failing `assert`) returns
  `Except String`.
-/

namespace Imajin

/-- `np.rint`: round half to even, as used by `safe_round` (via `np.rint`) and
by `Fluorophore.response` (via `np.round`). -/
def rint (q : ℚ) : ℤ :=
  if q - ⌊q⌋ < 1/2 then ⌊q⌋
  else if 1/2 < q - ⌊q⌋ then ⌊q⌋ + 1
  else if Even ⌊q⌋ then ⌊q⌋ else ⌊q⌋ + 1

/-- Rounding residual `q - rint q`, the quantity `np.argsort` orders in
`safe_round`. -/
def resid (q : ℚ) : ℚ := q - rint q

/-- Add `s` to the element at index `i` (identity when `i` is out of range).
Elementary step of the fancy-indexed update
`safe_rounded_array[sorted_index_array[0:n]] += np.copysign(1, error)`. -/
def addAt (s : ℤ) : List ℤ → ℕ → List ℤ
  | [], _ => []
  | x :: xs, 0 => (x + s) :: xs
  | x :: xs, i + 1 => x :: addAt s xs i

/-- Apply `addAt s` at each index of `idxs`.  The indices produced by
`safe_round` are pairwise distinct (a prefix of a permutation of
`List.range`), so this sequential update coincides with NumPy's vectorised
fancy-indexed `+=`. -/
def applyAdjust (s : ℤ) (idxs : List ℕ) (L : List ℤ) : List ℤ :=
  idxs.foldl (addAt s) L

/-- Sort key used by `np.argsort(array - rounded_array, axis=None)`:
the rounding residual of the element at index `i`. -/
def argKey (l : List ℚ) (i : ℕ) : ℚ := resid (l.getD i 0)

/-- Comparison of indices by rounding residual. -/
def argLE (l : List ℚ) (i j : ℕ) : Prop := argKey l i ≤ argKey l j

instance argLE.decidableRel (l : List ℚ) : DecidableRel (argLE l) :=
  fun i j => inferInstanceAs (Decidable (argKey l i ≤ argKey l j))

instance argLE.isTotal (l : List ℚ) : IsTotal ℕ (argLE l) :=
  ⟨fun i j => le_total (argKey l i) (argKey l j)⟩

instance argLE.isTrans (l : List ℚ) : IsTrans ℕ (argLE l) :=
  ⟨fun _ _ _ h h' => le_trans h h'⟩

/-- `np.argsort(array - rounded_array, axis=None)`: the indices of `l`,
ordered by ascending rounding residual. -/
def argsort (l : List ℚ) : List ℕ :=
  (List.range l.length).insertionSort (argLE l)

/-- `safe_round(array, total)` of `leb/imajin/optics/_optics.py`: round the
array elementwise with `np.rint`, then, if the rounded sum misses `total`,
add `copysign(1, error)` to the `int(abs(error))` entries that come first in
the ascending argsort of the rounding residuals. -/
def safe_round (l : List ℚ) (total : ℚ) : List ℤ :=
  if total - (((l.map rint).sum : ℤ) : ℚ) = 0 then l.map rint
  else
    applyAdjust (if 0 < total - (((l.map rint).sum : ℤ) : ℚ) then 1 else -1)
      ((argsort l).take ((⌊|total - (((l.map rint).sum : ℤ) : ℚ)|⌋).toNat))
      (l.map rint)

/-! ## Optics: images, PSF, `SimpleMicroscope.response` -/

/-- A NumPy float array embedded as a row-major list of rows of rationals. -/
abbrev QImage := List (List ℚ)

/-- An integer-valued image (result of `safe_round`, and the photon image). -/
abbrev ZImage := List (List ℤ)

/-- Sum of all entries of a rational image. -/
def qsum (img : QImage) : ℚ := (img.map List.sum).sum

/-- Sum of all entries of an integer image. -/
def isum (img : ZImage) : ℤ := (img.map List.sum).sum

/-- Cast an integer image to a float image (accumulation happens in float). -/
def castQ (img : ZImage) : QImage := img.map (List.map (fun z : ℤ => (z : ℚ)))

/-- The PSF protocol of `leb/imajin/_models.py`: `bin(x, y, x0, y0, dx, dy)`
returns the proportion of the normalized PSF centered at `(x0, y0)` that
intersects the rectangle at `(x, y)` with side lengths `(dx, dy)`. -/
structure PSFModel where
  bin : ℚ → ℚ → ℚ → ℚ → ℚ → ℚ → ℚ

/-- `EmitterResponse` of `leb/imajin/_models.py`.  `photons` is an integer in
the claims considered here; construction validates `photons ≥ 0` and
`wavelength > 0` (see `Fluorophore.response`). -/
structure EmitterResponse where
  x : ℚ
  y : ℚ
  z : ℚ
  photons : ℤ
  wavelength : ℚ
deriving DecidableEq

/-- `NullSample.response`: a null sample does not respond to a radiation
source. -/
def NullSample.response (_time _dt : ℚ) (_source : ℚ → ℚ → ℚ) :
    List EmitterResponse := []

/-- The per-pixel PSF grid `psf.bin(x, y, emitter.x, emitter.y)` over the
`np.ogrid` coordinates `y_lim[0]..y_lim[1]-1` × `x_lim[0]..x_lim[1]-1`
(default pixel size `dx = dy = 1`). -/
def binnedGrid (psf : PSFModel) (x_lim y_lim : ℕ × ℕ) (ex ey : ℚ) : QImage :=
  (List.range' y_lim.1 (y_lim.2 - y_lim.1)).map fun (i : ℕ) =>
    (List.range' x_lim.1 (x_lim.2 - x_lim.1)).map fun (j : ℕ) =>
      psf.bin ((j : ℕ) : ℚ) ((i : ℕ) : ℚ) ex ey 1 1

/-- Rebuild a flat list into rows with the same row lengths as a template
image (`reshape(array.shape)` after `flatten()`). -/
def reshapeLike : QImage → List ℤ → ZImage
  | [], _ => []
  | r :: rs, l => l.take r.length :: reshapeLike rs (l.drop r.length)

/-- `safe_round` applied to a 2-D array: NumPy's `argsort(..., axis=None)`
flattens, the adjusted flat array is reshaped back to the input shape. -/
def safeRound2 (img : QImage) (total : ℚ) : ZImage :=
  reshapeLike img (safe_round img.flatten total)

/-- `total_photons += binned_photons` with NumPy broadcasting: the added
image must have each dimension equal to the target's or to 1, otherwise the
operation raises. -/
def addBroadcast (T B : QImage) : Except String QImage :=
  let tr := T.length
  let tc := (T.headD []).length
  let br := B.length
  let bc := (B.headD []).length
  if br = tr ∧ bc = tc then
    .ok (List.zipWith (fun tRow bRow => List.zipWith (· + ·) tRow bRow) T B)
  else if br = 1 ∧ bc = tc then
    .ok (T.map fun tRow => List.zipWith (· + ·) tRow (B.headD []))
  else if br = tr ∧ bc = 1 then
    .ok (List.zipWith (fun tRow bRow => tRow.map (· + (bRow.headD 0))) T B)
  else if br = 1 ∧ bc = 1 then
    .ok (T.map fun tRow => tRow.map (· + ((B.headD []).headD 0)))
  else .error "operands could not be broadcast together"

/-- Truncation toward zero, the effect of NumPy's float-to-integer `astype`
on an exact value. -/
def ratTrunc (q : ℚ) : ℤ := q.num / q.den

/-- The value stored by `astype(np.uint64)`: truncate, then wrap modulo
`2 ^ 64`. -/
def u64cast (z : ℤ) : ℤ := z % 2 ^ 64

/-- One iteration of the emitter loop of `SimpleMicroscope.response`:
compute the clipped PSF area (the `assert psf_area <= 1.0` is modelled as a
failure), bin and scale the PSF, `safe_round`, and accumulate. -/
def accumEmitter (psf : PSFModel) (x_lim y_lim : ℕ × ℕ) (acc : QImage)
    (e : EmitterResponse) : Except String QImage :=
  if psf.bin 0 0 e.x e.y (x_lim.2 : ℚ) (y_lim.2 : ℚ) ≤ 1 then
    addBroadcast acc
      (castQ (safeRound2
        ((binnedGrid psf x_lim y_lim e.x e.y).map
          (List.map
            (· * ((e.photons : ℚ) * psf.bin 0 0 e.x e.y (x_lim.2 : ℚ) (y_lim.2 : ℚ)))))
        ((e.photons : ℚ) * psf.bin 0 0 e.x e.y (x_lim.2 : ℚ) (y_lim.2 : ℚ))))
  else .error "The integrated PSF area must be less than or equal to 1"

/-- `SimpleMicroscope` of `leb/imajin/optics/_optics.py`. -/
structure SimpleMicroscope where
  psf : PSFModel

/-- `SimpleMicroscope.response(x_lim, y_lim, sample_response)`.  Note that
the accumulator is allocated as `np.zeros((y_lim[1], x_lim[1]))`, exactly as
in the source. -/
def SimpleMicroscope.response (micro : SimpleMicroscope) (x_lim y_lim : ℕ × ℕ)
    (sample_response : List EmitterResponse) : Except String ZImage := do
  if x_lim.2 ≤ x_lim.1 then
    throw "The first element of x_lim must be less than the second"
  else if y_lim.2 ≤ y_lim.1 then
    throw "The first element of y_lim must be less than the second"
  else
    let total ← sample_response.foldlM (accumEmitter micro.psf x_lim y_lim)
      (List.replicate y_lim.2 (List.replicate x_lim.2 (0 : ℚ)))
    return total.map (List.map fun q => u64cast (ratTrunc q))

/-! ## StateMachine (`leb/imajin/samples/_state_machine.py`)

Event times live in `WithTop ℚ`, with `⊤` standing for `np.inf`.  The random
generator is an oracle `rng : ℕ → ℕ → ℚ` giving the standard-exponential
draw for (number of vector draws consumed so far, component index); the
machine records the draw counter in `rngCalls`.  The sampled transition time
for a target with rate `r > 0` is `rng call t / r` (an `Exponential(1/r)`
variate), and `⊤` for `r = 0`, as in
`rng.exponential(np.reciprocal(rates, out=inf, where=rates > 0))`. -/

/-- The machine's pending `_next_event`; its time may be `np.inf`. -/
structure NextEvent where
  time : WithTop ℚ
  from_state : ℕ
  to_state : ℕ
deriving DecidableEq

/-- An event returned by `collect`; the loop guard `time < time + dt` makes
every returned event time finite. -/
structure Event where
  time : ℚ
  from_state : ℕ
  to_state : ℕ
deriving DecidableEq

/-- The `StateMachine` dataclass.  `ctrl` is `_control_params` (assigned only
in `__post_init__`), `rate_constants` is N×N, `rate_coefficients` is
L×M×N×N. -/
structure StateMachine where
  current_state : ℕ
  ctrl : List ℚ
  next_event : NextEvent
  rate_constants : List (List ℚ)
  rate_coefficients : List (List (List (List ℚ)))
  stopped : Bool
  rng : ℕ → ℕ → ℚ
  rngCalls : ℕ

/-- Whether state `s` has an identically zero outgoing row in
`rate_constants` and in every `rate_coefficients` slice
(`stopped_states_cached`). -/
def isStoppedState (K : List (List ℚ)) (C : List (List (List (List ℚ))))
    (s : ℕ) : Bool :=
  ((K.getD s []).all fun r => r == 0) &&
    (C.all fun lslice => lslice.all fun mslice =>
      (mslice.getD s []).all fun r => r == 0)

/-- The list of stopped states (`stopped_states_cached` returns the state
ids in `range(num_states)` whose flags survived). -/
def stoppedStatesL (K : List (List ℚ)) (C : List (List (List (List ℚ)))) :
    List ℕ :=
  (List.range K.length).filter (isStoppedState K C)

/-- `compute_rates_cached`: `rate_constants + Σ_l Σ_m p_l^(m) ·
rate_coefficients[l, m-1]` (powers start at 1); validation of the control
vector length is skipped when the coefficient tensor is empty. -/
def computeRates (p : List ℚ) (K : List (List ℚ))
    (C : List (List (List (List ℚ)))) : Except String (List (List ℚ)) :=
  if C.isEmpty then .ok K
  else if p.length ≠ C.length then
    .error "the control parameters array must have the same number of elements as the first dimension of the rate_coefficents array"
  else
    .ok <| K.mapIdx fun i row => row.mapIdx fun j k =>
      k + (((List.range C.length).map fun l =>
        (((List.range (C.getD l []).length).map fun m =>
          (p.getD l 0) ^ (m + 1) *
            ((((C.getD l []).getD m []).getD i []).getD j 0)).sum)).sum)

/-- `np.min` over the vector of sampled transition times. -/
def listMinW (l : List (WithTop ℚ)) : WithTop ℚ := l.foldr min ⊤

/-- `np.argmin`: index of the first minimal element. -/
def argminW (l : List (WithTop ℚ)) : ℕ :=
  l.findIdx fun t => decide (t = listMinW l)

/-- `_compute_next_event(control_params, t_offset)`: returns the new pending
event, the new `stopped` flag, and the new draw counter. -/
def computeNextEvent (m : StateMachine) (p : List ℚ) (t_offset : ℚ) :
    Except String (NextEvent × Bool × ℕ) :=
  if m.current_state ∈ stoppedStatesL m.rate_constants m.rate_coefficients then
    .ok (⟨⊤, m.current_state, m.current_state⟩, true, m.rngCalls)
  else do
    let rates ← computeRates p m.rate_constants m.rate_coefficients
    let row := rates.getD m.current_state []
    let times : List (WithTop ℚ) := row.mapIdx fun t r =>
      if 0 < r then ((m.rng m.rngCalls t / r : ℚ) : WithTop ℚ) else ⊤
    .ok (⟨listMinW times + (t_offset : WithTop ℚ), m.current_state,
          argminW times⟩, m.stopped, m.rngCalls + 1)

/-- `StateMachine.__post_init__`: validate the control-parameter length,
store `_control_params`, and precompute the first event at offset 0. -/
def mkStateMachine (current : ℕ) (p : List ℚ) (K : List (List ℚ))
    (C : List (List (List (List ℚ)))) (rng : ℕ → ℕ → ℚ) :
    Except String StateMachine :=
  if p.length ≠ C.length then
    .error "the control parameters array must have the same number of elements as the first dimension of the rate_coefficents array"
  else do
    let (ev, st, calls) ←
      computeNextEvent ⟨current, p, ⟨⊤, current, current⟩, K, C, false, rng, 0⟩ p 0
    .ok ⟨current, p, ev, K, C, st, rng, calls⟩

/-- `StateMachine._update`: recompute the pending event iff the supplied
control parameters differ from the stored `_control_params`.  The stored
vector itself is never reassigned (it is written only in `__post_init__`). -/
def StateMachine.update (m : StateMachine) (p : List ℚ) (t_offset : ℚ) :
    Except String StateMachine :=
  if p = m.ctrl then .ok m
  else do
    let (ev, st, calls) ← computeNextEvent m p t_offset
    .ok { m with next_event := ev, stopped := st, rngCalls := calls }

/-- `StateMachine._step`: advance to the pending event's target state and
compute the successor event at offset `t_offset`. -/
def StateMachine.step (m : StateMachine) (p : List ℚ) (t_offset : ℚ) :
    Except String StateMachine := do
  let (ev, st, calls) ←
    computeNextEvent { m with current_state := m.next_event.to_state } p t_offset
  .ok ⟨m.next_event.to_state, m.ctrl, ev, m.rate_constants, m.rate_coefficients,
    st, m.rng, calls⟩

/-- The `while self._next_event.time < time + dt` loop of `collect`.  `fuel`
bounds the number of iterations; the Python loop terminates exactly when some
fuel suffices, and the result is then independent of any larger fuel. -/
def collectLoop (p : List ℚ) (tEnd : ℚ) :
    ℕ → StateMachine → List Event → Except String (List Event × StateMachine)
  | 0, m, acc => .ok (acc.reverse, m)
  | fuel + 1, m, acc =>
    match m.next_event.time with
    | ⊤ => .ok (acc.reverse, m)
    | (t : ℚ) =>
      if t < tEnd then do
        let m' ← m.step p t
        if m'.stopped then
          .ok ((⟨t, m.next_event.from_state, m.next_event.to_state⟩ :: acc).reverse, m')
        else
          collectLoop p tEnd fuel m'
            (⟨t, m.next_event.from_state, m.next_event.to_state⟩ :: acc)
      else .ok (acc.reverse, m)

/-- `StateMachine.collect(control_params, time, dt)`: the sole public
interface.  Returns the collected events and the mutated machine. -/
def StateMachine.collect (m : StateMachine) (p : List ℚ) (time dt : ℚ)
    (fuel : ℕ) : Except String (List Event × StateMachine) :=
  if m.stopped then .ok ([], m)
  else do
    let m1 ← m.update p time
    collectLoop p (time + dt) fuel m1 []

/-- Machines reachable through the public API: built by the constructor and
then driven only by `collect`. -/
inductive Reachable : StateMachine → Prop where
  | init (current : ℕ) (p : List ℚ) (K : List (List ℚ))
      (C : List (List (List (List ℚ)))) (rng : ℕ → ℕ → ℚ) (m : StateMachine) :
      mkStateMachine current p K C rng = .ok m → Reachable m
  | step (m : StateMachine) (p : List ℚ) (time dt : ℚ) (fuel : ℕ)
      (evs : List Event) (m' : StateMachine) : Reachable m →
      m.collect p time dt fuel = .ok (evs, m') → Reachable m'

/-! ## Fluorophore (`leb/imajin/samples/_samples.py`) -/

/-- The `Fluorophore` dataclass (positions and photophysical parameters; the
attached state machine). -/
structure Fluorophore where
  x : ℚ
  y : ℚ
  z : ℚ
  cross_section : ℚ
  fluorescence_lifetime : ℚ
  fluorescence_state : ℕ
  quantum_yield : ℚ
  state_machine : StateMachine
  wavelength : ℚ

/-- The interval decomposition built by `compute_on_fraction` for a nonempty
event list: `(event.time - previous, event.from_state)` for each event and a
final `(tEnd - last.time, last.to_state)`. -/
def intervalsOf (tEnd : ℚ) : ℚ → List Event → List (ℚ × ℕ)
  | _, [] => []
  | last, [e] => [(e.time - last, e.from_state), (tEnd - e.time, e.to_state)]
  | last, e :: rest => (e.time - last, e.from_state) :: intervalsOf tEnd e.time rest

/-- `Fluorophore.compute_on_fraction(time, dt, state_changes)`.  `cur` is
`self.state_machine.current_state`.  Note the division by `time + dt`,
exactly as in the source. -/
def Fluorophore.compute_on_fraction (f : Fluorophore) (cur : ℕ)
    (time dt : ℚ) (state_changes : List Event) : ℚ :=
  if state_changes.isEmpty then
    if f.fluorescence_state = cur then 1 else 0
  else
    ((((intervalsOf (time + dt) time state_changes).filter
        fun iv => iv.2 == f.fluorescence_state).map Prod.fst).sum) / (time + dt)

/-- `Fluorophore.compute_photon_rate(irradiance)`:
`q·σ·I / (1 + I/I_sat)` with `I_sat = 1/(σ·q·τ)`. -/
def Fluorophore.compute_photon_rate (f : Fluorophore) (irradiance : ℚ) : ℚ :=
  let saturation_irradiance :=
    1 / f.cross_section / f.quantum_yield / f.fluorescence_lifetime
  f.quantum_yield * f.cross_section * irradiance /
    (1 + irradiance / saturation_irradiance)

/-- `Fluorophore.response(time, dt, source)`: drive the state machine,
compute the on-fraction, and emit `np.round(on_fraction * photon_rate)`
photons (no `dt` factor appears in the source).  `EmitterResponse`
construction validates `photons ≥ 0` and `wavelength > 0`. -/
def Fluorophore.response (f : Fluorophore) (time dt : ℚ)
    (source : ℚ → ℚ → ℚ) (fuel : ℕ) :
    Except String (EmitterResponse × StateMachine) := do
  let irradiance := source f.x f.y
  let (state_changes, m') ← f.state_machine.collect [irradiance] time dt fuel
  let on_fraction := f.compute_on_fraction m'.current_state time dt state_changes
  let photons := rint (on_fraction * f.compute_photon_rate irradiance)
  if photons < 0 then .error "photons must be greater than zero"
  else if f.wavelength ≤ 0 then .error "wavelength must be greater than zero"
  else .ok (⟨f.x, f.y, f.z, photons, f.wavelength⟩, m')

/-! ## Detector (`leb/imajin/detectors/_detectors.py`) -/

/-- `BitDepth`: the enum pairs a bit depth with an unsigned container type;
the wrap of the final cast happens modulo the container width. -/
inductive BitDepth where
  | eight | ten | twelve | sixteen | thirtytwo
deriving DecidableEq

/-- The nominal bit depth (`bit_depth.value[0]`). -/
def BitDepth.bits : BitDepth → ℕ
  | .eight => 8
  | .ten => 10
  | .twelve => 12
  | .sixteen => 16
  | .thirtytwo => 32

/-- The width of the unsigned container dtype (`bit_depth.value[1]`). -/
def BitDepth.containerBits : BitDepth → ℕ
  | .eight => 8
  | .ten => 16
  | .twelve => 16
  | .sixteen => 16
  | .thirtytwo => 32

/-- `SimpleCMOSCamera` configuration. -/
structure SimpleCMOSCamera where
  baseline : ℤ
  bit_depth : BitDepth
  dark_noise : ℚ
  num_pixels : ℕ × ℕ
  quantum_efficiency : ℚ
  sensitivity : ℚ

/-- `SimpleCMOSCamera.response(photons, rng)`.  `poissonDraw i j` and
`normalDraw i j` are the realised shot-noise and read-noise draws for pixel
`(i, j)` (the oracle embedding of the generator).  Saturation clamps only
values above `2^bits - 1`; the final `astype` truncates and wraps modulo the
container width. -/
def SimpleCMOSCamera.response (c : SimpleCMOSCamera) (photons : Option QImage)
    (poissonDraw : ℕ → ℕ → ℕ) (normalDraw : ℕ → ℕ → ℚ) :
    Except String ZImage := do
  let rows := c.num_pixels.1
  let cols := c.num_pixels.2
  let photoelectrons : List (List ℚ) ← match photons with
    | none =>
      .ok ((List.range rows).map fun _ => (List.range cols).map fun _ => (0 : ℚ))
    | some P =>
      if P.length = rows ∧ ∀ row ∈ P, row.length = cols then
        if ∃ row ∈ P, ∃ v ∈ row, v < 0 then
          .error "photons cannot be less than zero"
        else
          .ok ((List.range rows).map fun i => (List.range cols).map fun j =>
            ((poissonDraw i j : ℕ) : ℚ))
      else .error "photons must have the same shape as num_pixels"
  let electrons := (List.range rows).map fun i => (List.range cols).map fun j =>
    normalDraw i j + (photoelectrons.getD i []).getD j 0
  let max_adu : ℚ := (2 : ℚ) ^ c.bit_depth.bits - 1
  let adu := electrons.map (List.map fun e =>
    let a := e * c.sensitivity + (c.baseline : ℚ)
    if max_adu < a then max_adu else a)
  return adu.map (List.map fun a =>
    (ratTrunc a) % (2 : ℤ) ^ c.bit_depth.containerBits)

/-! ## Simulator (`leb/imajin/simulators/_simulators.py`)

The Python `Simulator` is written against duck-typed protocols, so the
embedding is parametric in the component state types (`D`etector, `O`ptics,
`S`ample, `Src` source, processor identifiers `P`) and response types
(sample response `A`, optics response `B`, frame `F`).  The shared generator
is a position into an ambient stream, stored in the owned state and threaded
through the components.  Processors are stored as identifiers interpreted by
the environment, mirroring references to callables. -/

/-- The owned, deep-copied fields of a `Simulator`. -/
structure SimOwned (D O S Src P : Type) where
  detector : D
  optics : O
  sample : S
  source : Src
  time : ℚ
  dt : ℚ
  x_lim : ℤ × ℤ
  y_lim : ℤ × ℤ
  num_measurements : ℕ
  preprocessors : List P
  post_processors : List P
  rng : ℕ

/-- A `Simulator` value: the owned state, the `backup` flag, and the deep
snapshot `_initial_state` taken at construction when `backup` is true. -/
structure Simulator (D O S Src P : Type) where
  owned : SimOwned D O S Src P
  backup : Bool
  snapshot : Option (SimOwned D O S Src P)

/-- The duck-typed behaviour of the components: `sample.response` (which
mutates the sample and the generator), `optics.response` (pure),
`detector.response` (which consumes the generator), and the interpretation
of processor identifiers (processors may mutate any owned field). -/
structure SimEnv (D O S Src P A B F : Type) where
  sampleResponse : S → ℚ → ℚ → Src → ℕ → A × S × ℕ
  opticsResponse : O → ℤ × ℤ → ℤ × ℤ → A → B
  detectorResponse : D → B → ℕ → F × ℕ
  applyProc : P → SimOwned D O S Src P → Option (A × B × F) → SimOwned D O S Src P

/-- `Simulator.__post_init__`: take the deep snapshot when `backup` is
true. -/
def mkSimulator {D O S Src P : Type} (w : SimOwned D O S Src P)
    (backup : Bool) : Simulator D O S Src P :=
  ⟨w, backup, if backup then some w else none⟩

/-- `Simulator.step` (wrapped by `process`): run the preprocessors, the
sample→optics→detector pipeline, advance the clock, run the
post-processors. -/
def stepSim {D O S Src P A B F : Type} (env : SimEnv D O S Src P A B F)
    (sim : Simulator D O S Src P) : (A × B × F) × Simulator D O S Src P :=
  let w := sim.owned.preprocessors.foldl
    (fun w p => env.applyProc p w none) sim.owned
  let (sr, sample', rng₁) := env.sampleResponse w.sample w.time w.dt w.source w.rng
  let bimg := env.opticsResponse w.optics w.x_lim w.y_lim sr
  let (dr, rng₂) := env.detectorResponse w.detector bimg rng₁
  let w' := { w with sample := sample', rng := rng₂, time := w.time + w.dt }
  let resp := (sr, bimg, dr)
  let w'' := w'.post_processors.foldl
    (fun w p => env.applyProc p w (some resp)) w'
  (resp, { sim with owned := w'' })

/-- The measurement loop of `Simulator.run`. -/
def runSteps {D O S Src P A B F : Type} (env : SimEnv D O S Src P A B F) :
    ℕ → Simulator D O S Src P → List F → List F × Simulator D O S Src P
  | 0, sim, acc => (acc.reverse, sim)
  | n + 1, sim, acc =>
    let (resp, sim') := stepSim env sim
    runSteps env n sim' (resp.2.2 :: acc)

/-- `Simulator.reset`: restore every owned field from the snapshot and keep
`backup = True`; fail when `backup` was not enabled. -/
def resetSim {D O S Src P : Type} (sim : Simulator D O S Src P) :
    Except String (Simulator D O S Src P) :=
  if sim.backup then
    match sim.snapshot with
    | some w => .ok ⟨w, true, sim.snapshot⟩
    | none => .error "The simulator instance cannot be reset."
  else .error "The simulator instance cannot be reset."

/-- `Simulator.run(reset)`: collect `num_measurements` detector frames, then
optionally reset. -/
def runSim {D O S Src P A B F : Type} (env : SimEnv D O S Src P A B F)
    (sim : Simulator D O S Src P) (reset : Bool) :
    Except String (List F × Simulator D O S Src P) :=
  let (frames, sim') := runSteps env sim.owned.num_measurements sim []
  if reset then do
    let sim'' ← resetSim sim'
    .ok (frames, sim'')
  else .ok (frames, sim')

/-- A concrete environment over unit component states: the sample and the
detector each advance the generator position by one, and each detector frame
records the position the detector consumed. -/
def simEnvUnit : SimEnv Unit Unit Unit Unit Unit Unit Unit ℕ :=
  ⟨fun _ _ _ _ r => ((), (), r + 1), fun _ _ _ _ => (),
   fun _ _ r => (r, r + 1), fun _ w _ => w⟩

/-- A concrete owned state for `simEnvUnit`: one measurement, clock at 0,
generator at position 0. -/
def simOwnedUnit : SimOwned Unit Unit Unit Unit Unit :=
  ⟨(), (), (), (), 0, 1, (0, 32), (0, 32), 1, [], [], 0⟩

/-! ## Theorems

### Rounding residual facts -/

theorem resid_le_half (q : ℚ) : resid q ≤ 1 / 2 := by
  unfold resid rint
  have hfl : (⌊q⌋ : ℚ) ≤ q := Int.floor_le q
  have hfu : q < ⌊q⌋ + 1 := Int.lt_floor_add_one q
  split_ifs with h1 h2 h3 <;> push_cast <;> linarith

theorem neg_half_le_resid (q : ℚ) : -(1 / 2) ≤ resid q := by
  unfold resid rint
  have hfl : (⌊q⌋ : ℚ) ≤ q := Int.floor_le q
  have hfu : q < ⌊q⌋ + 1 := Int.lt_floor_add_one q
  split_ifs with h1 h2 h3 <;> push_cast <;> linarith

theorem rint_nonneg {q : ℚ} (h : 0 ≤ q) : 0 ≤ rint q := by
  have hfl : 0 ≤ ⌊q⌋ := Int.floor_nonneg.mpr h
  unfold rint
  split_ifs <;> omega

theorem rint_le_int {q : ℚ} {B : ℤ} (h : q ≤ (B : ℚ)) : rint q ≤ B := by
  have h1 : -(1 / 2) ≤ q - rint q := neg_half_le_resid q
  have h2 : (rint q : ℚ) < B + 1 := by linarith
  exact_mod_cast Int.lt_add_one_iff.mp (by exact_mod_cast h2)

theorem one_le_rint_of_resid_neg {q : ℚ} (h0 : 0 ≤ q) (h : resid q < 0) :
    1 ≤ rint q := by
  have h1 : (0 : ℚ) < rint q := by
    have := neg_half_le_resid q
    unfold resid at h
    linarith
  have h2 : (0 : ℤ) < rint q := by exact_mod_cast h1
  omega

/-! ### `addAt` and `applyAdjust` -/

theorem length_addAt (s : ℤ) (L : List ℤ) (i : ℕ) :
    (addAt s L i).length = L.length := by
  induction L generalizing i with
  | nil => rfl
  | cons x xs ih => cases i <;> simp [addAt, ih]

theorem sum_addAt (s : ℤ) (L : List ℤ) (i : ℕ) (h : i < L.length) :
    (addAt s L i).sum = L.sum + s := by
  induction L generalizing i with
  | nil => simp at h
  | cons x xs ih =>
    cases i with
    | zero => simp [addAt]; ring
    | succ j =>
      simp only [addAt, List.sum_cons]
      rw [ih j (by simpa using h)]
      ring

theorem getD_addAt (s : ℤ) (L : List ℤ) (i j : ℕ) :
    (addAt s L i).getD j 0 =
      L.getD j 0 + if j = i ∧ j < L.length then s else 0 := by
  induction L generalizing i j with
  | nil => simp [addAt]
  | cons x xs ih =>
    cases i with
    | zero =>
      cases j with
      | zero => simp [addAt]
      | succ j' => simp [addAt]
    | succ i' =>
      cases j with
      | zero => simp [addAt]
      | succ j' =>
        simp only [addAt, List.getD_cons_succ, ih i' j', List.length_cons]
        have hiff : (j' + 1 = i' + 1 ∧ j' + 1 < xs.length + 1) ↔
            (j' = i' ∧ j' < xs.length) := by omega
        rw [if_congr hiff rfl rfl]

theorem length_applyAdjust (s : ℤ) (idxs : List ℕ) (L : List ℤ) :
    (applyAdjust s idxs L).length = L.length := by
  induction idxs generalizing L with
  | nil => rfl
  | cons i rest ih => simp [applyAdjust, List.foldl_cons] at ih ⊢
                      rw [ih, length_addAt]

theorem sum_applyAdjust (s : ℤ) (idxs : List ℕ) (L : List ℤ)
    (h : ∀ i ∈ idxs, i < L.length) :
    (applyAdjust s idxs L).sum = L.sum + s * idxs.length := by
  induction idxs generalizing L with
  | nil => simp [applyAdjust]
  | cons i rest ih =>
    simp only [applyAdjust, List.foldl_cons] at ih ⊢
    rw [ih (addAt s L i) (fun x hx => by
      rw [length_addAt]; exact h x (List.mem_cons_of_mem i hx))]
    rw [sum_addAt s L i (h i (List.mem_cons_self i rest))]
    simp [List.length_cons]
    ring

theorem getD_applyAdjust (s : ℤ) (idxs : List ℕ) (L : List ℤ)
    (hnd : idxs.Nodup) (j : ℕ) :
    (applyAdjust s idxs L).getD j 0 =
      L.getD j 0 + if j ∈ idxs ∧ j < L.length then s else 0 := by
  induction idxs generalizing L with
  | nil => simp [applyAdjust]
  | cons i rest ih =>
    simp only [applyAdjust, List.foldl_cons] at ih ⊢
    have hnd' : rest.Nodup := hnd.of_cons
    have hni : i ∉ rest := by
      intro hmem; exact (List.nodup_cons.mp hnd).1 hmem
    rw [ih (addAt s L i) hnd', getD_addAt, length_addAt]
    by_cases hji : j = i
    · subst hji
      by_cases hlt : j < L.length
      · simp [hni, hlt]
      · simp [hlt]
    · by_cases hjr : j ∈ rest
      · by_cases hlt : j < L.length
        · simp [hji, hjr, hlt]
        · simp [hji, hlt]
      · simp [hji, hjr]

/-! ### `argsort` -/

theorem argsort_perm (l : List ℚ) :
    List.Perm (argsort l) (List.range l.length) :=
  List.perm_insertionSort (argLE l) (List.range l.length)

theorem length_argsort (l : List ℚ) : (argsort l).length = l.length := by
  rw [(argsort_perm l).length_eq, List.length_range]

theorem argsort_nodup (l : List ℚ) : (argsort l).Nodup :=
  (argsort_perm l).nodup_iff.mpr (List.nodup_range l.length)

theorem mem_argsort_lt (l : List ℚ) {i : ℕ} (h : i ∈ argsort l) :
    i < l.length := by
  have := (argsort_perm l).mem_iff.mp h
  simpa using this

theorem argsort_sorted (l : List ℚ) :
    List.Sorted (argLE l) (argsort l) :=
  List.sorted_insertionSort (argLE l) (List.range l.length)

/-- Counting elements of `l` through index lists: counting over
`range l.length` of a predicate on `l.getD` equals counting over `l`. -/
theorem countP_range_getD (l : List ℚ) (p : ℚ → Bool) :
    (List.range l.length).countP (fun i => p (l.getD i 0)) = l.countP p := by
  induction l with
  | nil => simp
  | cons x xs ih =>
    rw [List.length_cons, List.range_succ_eq_map, List.countP_cons,
      List.countP_map]
    simp only [List.getD_cons_zero]
    have : ((List.range xs.length).countP
        ((fun i => p ((x :: xs).getD i 0)) ∘ Nat.succ)) =
        (List.range xs.length).countP (fun i => p (xs.getD i 0)) := by
      apply List.countP_congr
      intro i _
      simp [Function.comp]
    rw [this, ih, List.countP_cons]

/-- If at least `n` elements of `l` have negative rounding residual, every
index among the first `n` of the residual argsort has negative residual. -/
theorem take_argsort_resid_neg (l : List ℚ) (n : ℕ)
    (h : n ≤ l.countP fun q => decide (resid q < 0)) :
    ∀ i ∈ (argsort l).take n, resid (l.getD i 0) < 0 := by
  intro i hi
  by_contra hnot
  push_neg at hnot
  have hp : ∀ j : ℕ, (fun i => decide (resid (l.getD i 0) < 0)) j = true ↔
      resid (l.getD j 0) < 0 := by intro j; simp
  -- residual count over the argsort equals the count over `l`
  have hcount : (argsort l).countP (fun i => decide (resid (l.getD i 0) < 0)) =
      l.countP fun q => decide (resid q < 0) := by
    rw [(argsort_perm l).countP_eq]
    exact countP_range_getD l (fun q => decide (resid q < 0))
  -- split the argsort at position n
  have hsplit : (argsort l).take n ++ (argsort l).drop n = argsort l :=
    List.take_append_drop n (argsort l)
  have hsorted : List.Pairwise (argLE l) ((argsort l).take n ++ (argsort l).drop n) := by
    rw [hsplit]; exact argsort_sorted l
  have hrel := (List.pairwise_append.mp hsorted).2.2
  -- everything in the tail has residual at least `resid (l.getD i 0) ≥ 0`
  have htail : ∀ b ∈ (argsort l).drop n,
      ¬ ((fun i => decide (resid (l.getD i 0) < 0)) b = true) := by
    intro b hb
    have harg : argLE l i b := hrel i hi b hb
    unfold argLE argKey at harg
    rw [hp]
    linarith
  have htailcount : ((argsort l).drop n).countP
      (fun i => decide (resid (l.getD i 0) < 0)) = 0 :=
    List.countP_eq_zero.mpr htail
  -- the head contains `i`, which fails the predicate, so its count is below `n`
  have hheadlen := List.length_eq_countP_add_countP
    (fun i => decide (resid (l.getD i 0) < 0)) ((argsort l).take n)
  have hheadbound : ((argsort l).take n).countP
      (fun i => decide (resid (l.getD i 0) < 0)) < n := by
    have hlen : ((argsort l).take n).length ≤ n :=
      List.length_take_le n (argsort l)
    have hneg : 0 < ((argsort l).take n).countP
        fun a => decide ¬(decide (resid (l.getD a 0) < 0) = true) := by
      refine List.countP_pos_iff.mpr ⟨i, hi, ?_⟩
      simp only [decide_eq_true_eq, decide_not, Bool.not_eq_true',
        decide_eq_false_iff_not]
      exact not_lt.mpr hnot
    omega
  have hlt : (argsort l).countP (fun i => decide (resid (l.getD i 0) < 0)) < n := by
    rw [← hsplit, List.countP_append, htailcount]
    omega
  omega

/-! ### Residual sums -/

theorem sum_map_resid (l : List ℚ) :
    (l.map resid).sum = l.sum - (((l.map rint).sum : ℤ) : ℚ) := by
  induction l with
  | nil => simp
  | cons x xs ih =>
    simp only [List.map_cons, List.sum_cons, ih, resid]
    push_cast
    ring

theorem sum_map_resid_le (l : List ℚ) :
    (l.map resid).sum ≤ (l.length : ℚ) / 2 := by
  induction l with
  | nil => simp
  | cons x xs ih =>
    have := resid_le_half x
    simp only [List.map_cons, List.sum_cons, List.length_cons]
    push_cast
    linarith

theorem neg_le_sum_map_resid (l : List ℚ) :
    -((l.length : ℚ) / 2) ≤ (l.map resid).sum := by
  induction l with
  | nil => simp
  | cons x xs ih =>
    have := neg_half_le_resid x
    simp only [List.map_cons, List.sum_cons, List.length_cons]
    push_cast
    linarith

theorem count_le_sum_map_resid (l : List ℚ) :
    -(((l.countP fun q => decide (resid q < 0)) : ℚ)) / 2 ≤
      (l.map resid).sum := by
  induction l with
  | nil => simp
  | cons x xs ih =>
    rw [List.map_cons, List.sum_cons, List.countP_cons]
    by_cases h : resid x < 0
    · have h1 := neg_half_le_resid x
      simp only [h, decide_eq_true_eq, if_pos]
      push_cast
      linarith
    · have h1 : 0 ≤ resid x := not_lt.mp h
      simp only [h, decide_eq_true_eq, if_neg, decide_False]
      push_cast
      linarith

/-! ### `safe_round`: length, entry shape, sums -/

theorem length_safe_round (l : List ℚ) (total : ℚ) :
    (safe_round l total).length = l.length := by
  unfold safe_round
  split_ifs <;> simp [length_applyAdjust]

theorem getD_map_rint (l : List ℚ) (j : ℕ) (hj : j < l.length) :
    (l.map rint).getD j 0 = rint (l.getD j 0) := by
  rw [List.getD_eq_getElem _ _ (by simpa using hj), List.getElem_map,
    List.getD_eq_getElem _ _ hj]

/-- Entry-wise description of `safe_round` when the array sum does not
exceed `total`: every entry is the `np.rint` of its input, possibly
adjusted by `+1`, or by `-1` in which case the entry had a strictly negative
rounding residual. -/
theorem getD_safe_round_of_le (l : List ℚ) (total : ℚ) (h : l.sum ≤ total)
    (j : ℕ) (hj : j < l.length) :
    (safe_round l total).getD j 0 = rint (l.getD j 0) ∨
    (safe_round l total).getD j 0 = rint (l.getD j 0) + 1 ∨
    ((safe_round l total).getD j 0 = rint (l.getD j 0) - 1 ∧
      resid (l.getD j 0) < 0) := by
  unfold safe_round
  set err : ℚ := total - (((l.map rint).sum : ℤ) : ℚ) with herr
  have hnodup : ∀ n : ℕ, ((argsort l).take n).Nodup := fun n =>
    (argsort_nodup l).sublist (List.take_sublist _ _)
  split_ifs with h0 hs
  · left; exact getD_map_rint l j hj
  · -- positive error: adjusted entries get +1
    rw [getD_applyAdjust _ _ _ (hnodup _), List.length_map, getD_map_rint l j hj]
    by_cases hmem : j ∈ (argsort l).take (⌊|err|⌋.toNat) ∧ j < l.length
    · right; left; simp [hmem]
    · left; simp [hmem]
  · -- negative error: adjusted entries get -1 and have negative residual
    have herrneg : err < 0 := lt_of_le_of_ne (not_lt.mp hs) h0
    rw [getD_applyAdjust _ _ _ (hnodup _), List.length_map, getD_map_rint l j hj]
    by_cases hmem : j ∈ (argsort l).take (⌊|err|⌋.toNat) ∧ j < l.length
    · have hsumresid : (l.map resid).sum ≤ err := by
        rw [sum_map_resid, herr]
        linarith
      have hcount : (⌊|err|⌋.toNat : ℚ) ≤
          ((l.countP fun q => decide (resid q < 0)) : ℚ) := by
        have h2 : (0:ℤ) ≤ ⌊|err|⌋ := Int.floor_nonneg.mpr (abs_nonneg err)
        have h3 : (⌊|err|⌋ : ℚ) ≤ |err| := Int.floor_le _
        have h4 : ((⌊|err|⌋.toNat : ℤ) : ℚ) = (⌊|err|⌋ : ℚ) := by
          exact_mod_cast congrArg (Int.cast : ℤ → ℚ) (Int.toNat_of_nonneg h2)
        have h1 : (⌊|err|⌋.toNat : ℚ) ≤ |err| := by
          push_cast at h4 ⊢
          linarith
        have h5 : |err| = -err := abs_of_neg herrneg
        have h6 := count_le_sum_map_resid l
        have h7 : (0:ℚ) ≤ ((l.countP fun q => decide (resid q < 0)) : ℚ) := by
          positivity
        linarith
      have hcount' : ⌊|err|⌋.toNat ≤ l.countP fun q => decide (resid q < 0) := by
        exact_mod_cast hcount
      have hres := take_argsort_resid_neg l _ hcount' j hmem.1
      right; right
      exact ⟨by simp [hmem]; ring, hres⟩
    · left; simp [hmem]

theorem safe_round_mem_getD (l : List ℚ) (total : ℚ) {z : ℤ}
    (hz : z ∈ safe_round l total) :
    ∃ j : ℕ, j < l.length ∧ (safe_round l total).getD j 0 = z := by
  obtain ⟨j, hj, hzj⟩ := List.mem_iff_getElem.mp hz
  refine ⟨j, by rw [← length_safe_round l total]; exact hj, ?_⟩
  rw [List.getD_eq_getElem _ _ hj, hzj]

theorem safe_round_nonneg (l : List ℚ) (total : ℚ)
    (h0 : ∀ q ∈ l, 0 ≤ q) (h : l.sum ≤ total) :
    ∀ z ∈ safe_round l total, 0 ≤ z := by
  intro z hz
  obtain ⟨j, hj, hzj⟩ := safe_round_mem_getD l total hz
  have hmem : l.getD j 0 ∈ l := by
    rw [List.getD_eq_getElem _ _ hj]; exact List.getElem_mem hj
  have hq : 0 ≤ l.getD j 0 := h0 _ hmem
  rcases getD_safe_round_of_le l total h j hj with hc | hc | ⟨hc, hres⟩ <;>
    rw [hzj] at hc
  · have := rint_nonneg hq; omega
  · have := rint_nonneg hq; omega
  · have := one_le_rint_of_resid_neg hq hres; omega

theorem safe_round_upper (l : List ℚ) (total : ℚ) (B : ℤ)
    (hB : ∀ q ∈ l, q ≤ (B : ℚ)) (h : l.sum ≤ total) :
    ∀ z ∈ safe_round l total, z ≤ B + 1 := by
  intro z hz
  obtain ⟨j, hj, hzj⟩ := safe_round_mem_getD l total hz
  have hmem : l.getD j 0 ∈ l := by
    rw [List.getD_eq_getElem _ _ hj]; exact List.getElem_mem hj
  have hq : l.getD j 0 ≤ (B : ℚ) := hB _ hmem
  have hr := rint_le_int hq
  rcases getD_safe_round_of_le l total h j hj with hc | hc | ⟨hc, _⟩ <;>
    rw [hzj] at hc <;> omega

theorem take_argsort_lt (l : List ℚ) (n : ℕ) :
    ∀ i ∈ (argsort l).take n, i < (l.map rint).length := fun i hi => by
  rw [List.length_map]
  exact mem_argsort_lt l (List.mem_of_mem_take hi)

theorem length_take_argsort (l : List ℚ) (n : ℕ) :
    ((argsort l).take n).length = min n l.length := by
  rw [List.length_take, length_argsort]

/-- `safe_round` preserves an exact integer total: when the array sums to the
integer `total`, the adjusted rounded array sums to `total`. -/
theorem sum_safe_round_int (l : List ℚ) (T : ℤ) (h : l.sum = (T : ℚ)) :
    (safe_round l (T : ℚ)).sum = T := by
  have hresid : (l.map resid).sum = ((T - (l.map rint).sum : ℤ) : ℚ) := by
    rw [sum_map_resid, h]; push_cast; ring
  have habs : |((T - (l.map rint).sum : ℤ) : ℚ)| ≤ (l.length : ℚ) / 2 := by
    rw [← hresid, abs_le]
    exact ⟨neg_le_sum_map_resid l, sum_map_resid_le l⟩
  have hnat : (T - (l.map rint).sum).natAbs ≤ l.length := by
    have h1 : |((T - (l.map rint).sum : ℤ) : ℚ)| =
        (((T - (l.map rint).sum).natAbs : ℤ) : ℚ) := by
      rw [← Int.cast_abs, Int.abs_eq_natAbs]
    rw [h1] at habs
    have h2 : (((T - (l.map rint).sum).natAbs : ℤ) : ℚ) ≤ (l.length : ℚ) := by
      have : (0:ℚ) ≤ (l.length : ℚ) := by positivity
      linarith
    exact_mod_cast h2
  have herrcast : (T : ℚ) - (((l.map rint).sum : ℤ) : ℚ) =
      ((T - (l.map rint).sum : ℤ) : ℚ) := by push_cast; ring
  unfold safe_round
  rw [herrcast]
  have hfloor : ⌊|((T - (l.map rint).sum : ℤ) : ℚ)|⌋.toNat =
      (T - (l.map rint).sum).natAbs := by
    rw [← Int.cast_abs, Int.floor_intCast, Int.abs_eq_natAbs]
    omega
  split_ifs with h0 hs
  · have : ((l.map rint).sum : ℚ) = (T : ℚ) := by linarith
    exact_mod_cast this
  · -- positive error
    rw [hfloor, sum_applyAdjust _ _ _ (take_argsort_lt l _), length_take_argsort,
      Nat.min_eq_left hnat]
    have hpos : (0 : ℤ) < T - (l.map rint).sum := by exact_mod_cast hs
    omega
  · -- negative error
    rw [hfloor, sum_applyAdjust _ _ _ (take_argsort_lt l _), length_take_argsort,
      Nat.min_eq_left hnat]
    have hne : ¬ ((0:ℚ) = ((T - (l.map rint).sum : ℤ) : ℚ)) := fun hEq => h0 hEq.symm
    have hneg : (T - (l.map rint).sum : ℤ) < 0 := by
      have h1 : ¬ ((0:ℤ) < T - (l.map rint).sum) := fun hc => hs (by exact_mod_cast hc)
      have h2 : (T - (l.map rint).sum : ℤ) ≠ 0 := by
        intro hc
        exact h0 (by rw [hc]; simp)
      omega
    omega

/-- When the array sum is at most `total`, the `safe_round` sum is at most
`⌈total⌉`. -/
theorem sum_safe_round_le (l : List ℚ) (total : ℚ) (h : l.sum ≤ total) :
    (safe_round l total).sum ≤ ⌈total⌉ := by
  have hRle : (((l.map rint).sum : ℤ) : ℚ) ≤ l.sum + (l.length : ℚ) / 2 := by
    have := neg_le_sum_map_resid l
    rw [sum_map_resid] at this
    linarith
  unfold safe_round
  split_ifs with h0 hs
  · have hR : ((l.map rint).sum : ℚ) = total := by linarith
    have : ⌈total⌉ = (l.map rint).sum := by rw [← hR, Int.ceil_intCast]
    omega
  · -- positive error: the sum grows by at most the error
    rw [sum_applyAdjust _ _ _ (take_argsort_lt l _), length_take_argsort]
    have herrpos : (0:ℚ) < total - ((l.map rint).sum : ℤ) := hs
    have hfl : (0:ℤ) ≤ ⌊|total - (((l.map rint).sum : ℤ) : ℚ)|⌋ :=
      Int.floor_nonneg.mpr (abs_nonneg _)
    have hle : ((⌊|total - (((l.map rint).sum : ℤ) : ℚ)|⌋.toNat : ℤ) : ℚ) ≤
        total - ((l.map rint).sum : ℤ) := by
      have h1 : ((⌊|total - (((l.map rint).sum : ℤ) : ℚ)|⌋.toNat : ℤ) : ℚ) =
          ((⌊|total - (((l.map rint).sum : ℤ) : ℚ)|⌋ : ℤ) : ℚ) := by
        exact_mod_cast congrArg (Int.cast : ℤ → ℚ) (Int.toNat_of_nonneg hfl)
      rw [h1]
      calc ((⌊|total - (((l.map rint).sum : ℤ) : ℚ)|⌋ : ℤ) : ℚ) ≤
          |total - (((l.map rint).sum : ℤ) : ℚ)| := Int.floor_le _
        _ = total - (((l.map rint).sum : ℤ) : ℚ) := abs_of_pos herrpos
    have hmin : ((min ⌊|total - (((l.map rint).sum : ℤ) : ℚ)|⌋.toNat l.length : ℕ) : ℚ) ≤
        total - ((l.map rint).sum : ℤ) := by
      calc ((min ⌊|total - (((l.map rint).sum : ℤ) : ℚ)|⌋.toNat l.length : ℕ) : ℚ)
          ≤ ((⌊|total - (((l.map rint).sum : ℤ) : ℚ)|⌋.toNat : ℕ) : ℚ) := by
            exact_mod_cast Nat.cast_le.mpr (Nat.min_le_left _ _)
        _ ≤ total - ((l.map rint).sum : ℤ) := hle
    have hceil : total ≤ (⌈total⌉ : ℚ) := Int.le_ceil total
    have goalq : (((l.map rint).sum +
        1 * (min ⌊|total - (((l.map rint).sum : ℤ) : ℚ)|⌋.toNat l.length : ℕ) : ℤ) : ℚ) ≤
        (⌈total⌉ : ℚ) := by
      push_cast
      push_cast at hmin
      linarith
    exact_mod_cast goalq
  · -- negative error: the sum becomes exactly `⌈total⌉`, or less
    rw [sum_applyAdjust _ _ _ (take_argsort_lt l _), length_take_argsort]
    have herrneg : total - (((l.map rint).sum : ℤ) : ℚ) < 0 :=
      lt_of_le_of_ne (not_lt.mp hs) h0
    have habs : |total - (((l.map rint).sum : ℤ) : ℚ)| =
        -total + ((l.map rint).sum : ℤ) := by
      rw [abs_of_neg herrneg]; ring
    have hfloorval : ⌊|total - (((l.map rint).sum : ℤ) : ℚ)|⌋ =
        -⌈total⌉ + (l.map rint).sum := by
      rw [habs, Int.floor_add_int, Int.floor_neg]
    have hflnn : (0:ℤ) ≤ ⌊|total - (((l.map rint).sum : ℤ) : ℚ)|⌋ :=
      Int.floor_nonneg.mpr (abs_nonneg _)
    rcases le_or_lt (⌊|total - (((l.map rint).sum : ℤ) : ℚ)|⌋.toNat) l.length with hcase | hcase
    · rw [Nat.min_eq_left hcase]
      have : (⌊|total - (((l.map rint).sum : ℤ) : ℚ)|⌋.toNat : ℤ) =
          -⌈total⌉ + (l.map rint).sum := by
        rw [Int.toNat_of_nonneg hflnn, hfloorval]
      omega
    · rw [Nat.min_eq_right hcase.le]
      -- `R - len ≤ total ≤ ⌈total⌉`
      have hceil : total ≤ (⌈total⌉ : ℚ) := Int.le_ceil total
      have goalq : (((l.map rint).sum + -1 * (l.length : ℤ) : ℤ) : ℚ) ≤ (⌈total⌉ : ℚ) := by
        push_cast
        push_cast at hRle
        linarith
      exact_mod_cast goalq

/-! ### Image plumbing -/

theorem ratTrunc_intCast (z : ℤ) : ratTrunc ((z : ℤ) : ℚ) = z := by
  unfold ratTrunc
  rw [Rat.num_intCast, Rat.den_intCast]
  simp

theorem u64cast_of_lt {z : ℤ} (h0 : 0 ≤ z) (h : z < 2 ^ 64) : u64cast z = z :=
  Int.emod_eq_of_lt h0 h

theorem isum_eq_sum_flatten (Z : ZImage) : isum Z = Z.flatten.sum := by
  rw [isum, List.sum_flatten]

theorem qsum_eq_sum_flatten (Q : QImage) : qsum Q = Q.flatten.sum := by
  rw [qsum, List.sum_flatten]

theorem length_reshapeLike (tmpl : QImage) (l : List ℤ) :
    (reshapeLike tmpl l).length = tmpl.length := by
  induction tmpl generalizing l with
  | nil => rfl
  | cons r rs ih => simp [reshapeLike, ih]

theorem flatten_reshapeLike (tmpl : QImage) (l : List ℤ)
    (h : l.length = tmpl.flatten.length) :
    (reshapeLike tmpl l).flatten = l := by
  induction tmpl generalizing l with
  | nil =>
    simp at h
    simp [reshapeLike, h]
  | cons r rs ih =>
    simp only [reshapeLike, List.flatten_cons]
    rw [ih (l.drop r.length) (by simp at h ⊢; omega)]
    exact List.take_append_drop r.length l

theorem rows_reshapeLike (tmpl : QImage) (l : List ℤ)
    (h : l.length = tmpl.flatten.length) :
    (reshapeLike tmpl l).map List.length = tmpl.map List.length := by
  induction tmpl generalizing l with
  | nil => rfl
  | cons r rs ih =>
    simp only [List.flatten_cons, List.length_append] at h
    simp only [reshapeLike, List.map_cons]
    have h1 : (List.take r.length l).length = r.length := by
      rw [List.length_take]; omega
    rw [h1, ih (l.drop r.length) (by rw [List.length_drop]; omega)]

theorem sum_zipWith_add (a b : List ℤ) (h : a.length = b.length) :
    (List.zipWith (· + ·) a b).sum = a.sum + b.sum := by
  induction a generalizing b with
  | nil => cases b <;> simp at h ⊢
  | cons x xs ih =>
    cases b with
    | nil => simp at h
    | cons y ys =>
      simp only [List.zipWith_cons_cons, List.sum_cons, ih ys (by simpa using h)]
      ring

theorem mem_zipWith_add {a b : List ℤ} {z : ℤ}
    (hz : z ∈ List.zipWith (· + ·) a b) :
    ∃ x ∈ a, ∃ y ∈ b, z = x + y := by
  induction a generalizing b with
  | nil => simp at hz
  | cons x xs ih =>
    cases b with
    | nil => simp at hz
    | cons y ys =>
      simp only [List.zipWith_cons_cons, List.mem_cons] at hz
      rcases hz with hz | hz
      · exact ⟨x, List.mem_cons_self x xs, y, List.mem_cons_self y ys, hz⟩
      · obtain ⟨x', hx', y', hy', hz'⟩ := ih hz
        exact ⟨x', List.mem_cons_of_mem _ hx', y', List.mem_cons_of_mem _ hy', hz'⟩

theorem isum_zipWith (A B : ZImage) (hL : A.length = B.length)
    (hrows : A.map List.length = B.map List.length) :
    isum (List.zipWith (List.zipWith (· + ·)) A B) = isum A + isum B := by
  induction A generalizing B with
  | nil => cases B <;> simp [isum] at hL ⊢
  | cons r rs ih =>
    cases B with
    | nil => simp at hL
    | cons t ts =>
      simp only [List.map_cons, List.cons.injEq] at hrows
      simp only [List.zipWith_cons_cons, isum, List.map_cons, List.sum_cons]
      have := ih ts (by simpa using hL) hrows.2
      simp only [isum] at this
      rw [sum_zipWith_add r t hrows.1, this]
      ring

theorem mem_flatten_zipWith {A B : ZImage} {z : ℤ}
    (hz : z ∈ (List.zipWith (List.zipWith (· + ·)) A B).flatten) :
    ∃ x y : ℤ, (x ∈ A.flatten ∧ y ∈ B.flatten) ∧ z = x + y := by
  induction A generalizing B with
  | nil => simp at hz
  | cons r rs ih =>
    cases B with
    | nil => simp at hz
    | cons t ts =>
      simp only [List.zipWith_cons_cons, List.flatten_cons, List.mem_append] at hz
      rcases hz with hz | hz
      · obtain ⟨x, hx, y, hy, hxy⟩ := mem_zipWith_add hz
        exact ⟨x, y, ⟨by simp [hx], by simp [hy]⟩, hxy⟩
      · obtain ⟨x, y, ⟨hx, hy⟩, hxy⟩ := ih hz
        refine ⟨x, y, ⟨?_, ?_⟩, hxy⟩ <;> simp_all

theorem length_castQ (Z : ZImage) : (castQ Z).length = Z.length := by
  simp [castQ]

theorem rows_castQ (Z : ZImage) :
    (castQ Z).map List.length = Z.map List.length := by
  simp [castQ, Function.comp]

theorem zipWith_add_cast_row (r t : List ℤ) :
    List.zipWith (· + ·) (r.map fun z : ℤ => (z : ℚ)) (t.map fun z : ℤ => (z : ℚ)) =
      (List.zipWith (· + ·) r t).map fun z : ℤ => (z : ℚ) := by
  induction r generalizing t with
  | nil => simp
  | cons x xs ihr =>
    cases t with
    | nil => simp
    | cons y ys => simp [ihr ys]

theorem zipWith_add_castQ (A B : ZImage) :
    List.zipWith (fun tRow bRow => List.zipWith (· + ·) tRow bRow)
      (castQ A) (castQ B) =
    castQ (List.zipWith (List.zipWith (· + ·)) A B) := by
  induction A generalizing B with
  | nil => simp [castQ]
  | cons r rs ih =>
    cases B with
    | nil => simp [castQ]
    | cons t ts =>
      simp only [castQ, List.map_cons, List.zipWith_cons_cons] at ih ⊢
      rw [zipWith_add_cast_row r t]
      exact List.cons_eq_cons.mpr ⟨rfl, ih ts⟩

/-- `addBroadcast` on equal-shaped images of positive height is plain
elementwise addition, and commutes with the integer-to-float cast. -/
theorem addBroadcast_castQ_exact (A B : ZImage) (W : ℕ)
    (hpos : 0 < A.length) (hL : B.length = A.length)
    (hA : ∀ row ∈ A, row.length = W) (hB : ∀ row ∈ B, row.length = W) :
    addBroadcast (castQ A) (castQ B) =
      .ok (castQ (List.zipWith (List.zipWith (· + ·)) A B)) := by
  obtain ⟨r, rs, rfl⟩ : ∃ r rs, A = r :: rs := by
    cases A with
    | nil => simp at hpos
    | cons r rs => exact ⟨r, rs, rfl⟩
  obtain ⟨t, ts, rfl⟩ : ∃ t ts, B = t :: ts := by
    cases B with
    | nil => simp at hL
    | cons t ts => exact ⟨t, ts, rfl⟩
  have hr : r.length = W := hA r (List.mem_cons_self r rs)
  have ht : t.length = W := hB t (List.mem_cons_self t ts)
  unfold addBroadcast
  rw [if_pos]
  · rw [zipWith_add_castQ]
  · constructor
    · simpa [castQ] using hL
    · simp [castQ, hr, ht]

/-- Undo the float cast and the `uint64` cast on an integer image whose
entries lie in `[0, 2^64)`. -/
theorem castQ_u64_roundtrip (Z : ZImage)
    (h : ∀ v ∈ Z.flatten, 0 ≤ v ∧ v < 2 ^ 64) :
    (castQ Z).map (List.map fun q => u64cast (ratTrunc q)) = Z := by
  induction Z with
  | nil => rfl
  | cons r rs ih =>
    simp only [castQ, List.map_cons, List.map_map, List.cons.injEq] at ih ⊢
    constructor
    · have : ∀ v ∈ r, ((fun q => u64cast (ratTrunc q)) ∘ fun z : ℤ => (z : ℚ)) v = id v := by
        intro v hv
        have hvr := h v (by simp [hv])
        simp only [Function.comp, id]
        rw [ratTrunc_intCast, u64cast_of_lt hvr.1 hvr.2]
      rw [List.map_congr_left this, List.map_id]
    · have := ih (fun v hv => h v (by simp at hv ⊢; tauto))
      simpa [castQ, List.map_map] using this

theorem length_binnedGrid (psf : PSFModel) (x_lim y_lim : ℕ × ℕ) (ex ey : ℚ) :
    (binnedGrid psf x_lim y_lim ex ey).length = y_lim.2 - y_lim.1 := by
  unfold binnedGrid
  rw [List.length_map, List.length_range']

theorem rows_binnedGrid (psf : PSFModel) (x_lim y_lim : ℕ × ℕ) (ex ey : ℚ) :
    ∀ row ∈ binnedGrid psf x_lim y_lim ex ey, row.length = x_lim.2 - x_lim.1 := by
  intro row hrow
  unfold binnedGrid at hrow
  obtain ⟨i, _, rfl⟩ := List.mem_map.mp hrow
  rw [List.length_map, List.length_range']

theorem castQ_replicate_zero (H W : ℕ) :
    castQ (List.replicate H (List.replicate W (0 : ℤ))) =
      List.replicate H (List.replicate W (0 : ℚ)) := by
  simp [castQ, List.map_replicate]

theorem isum_replicate_zero (H W : ℕ) :
    isum (List.replicate H (List.replicate W (0 : ℤ))) = 0 := by
  simp [isum, List.map_replicate, List.sum_replicate]

theorem mem_flatten_replicate_zero {H W : ℕ} {v : ℤ}
    (h : v ∈ (List.replicate H (List.replicate W (0 : ℤ))).flatten) : v = 0 := by
  obtain ⟨row, hrow, hv⟩ := List.mem_flatten.mp h
  rw [List.eq_of_mem_replicate hrow] at hv
  exact List.eq_of_mem_replicate hv

/-- The row lengths of the `safe_round`ed, reshaped emitter image equal the
row lengths of the binned grid. -/
theorem safeRound2_shape (d : QImage) (total : ℚ) :
    (safeRound2 d total).length = d.length ∧
    (safeRound2 d total).map List.length = d.map List.length := by
  have hflat : (safe_round d.flatten total).length = d.flatten.length :=
    length_safe_round _ _
  exact ⟨length_reshapeLike d _, rows_reshapeLike d _ hflat⟩

theorem safeRound2_flatten (d : QImage) (total : ℚ) :
    (safeRound2 d total).flatten = safe_round d.flatten total :=
  flatten_reshapeLike d _ (length_safe_round _ _)

/-- Row lengths through a `map List.length` equality. -/
theorem rows_of_map_length_eq {A : ZImage} {B : QImage} {W : ℕ}
    (h : A.map List.length = B.map List.length)
    (hB : ∀ row ∈ B, row.length = W) : ∀ row ∈ A, row.length = W := by
  intro row hrow
  have : row.length ∈ B.map List.length := by
    rw [← h]; exact List.mem_map_of_mem List.length hrow
  obtain ⟨brow, hb, hlen⟩ := List.mem_map.mp this
  rw [← hlen]; exact hB brow hb

/-- What one iteration of the emitter loop does to a well-shaped integer
accumulator: the clipped area passed the assert, and the accumulator grows by
the `safe_round`ed scaled grid. -/
theorem accumEmitter_castQ (psf : PSFModel) (W H : ℕ) (_hW : 0 < W) (hH : 0 < H)
    (e : EmitterResponse) (Z : ZImage)
    (hZlen : Z.length = H) (hZrows : ∀ row ∈ Z, row.length = W)
    (out : QImage)
    (hout : accumEmitter psf (0, W) (0, H) (castQ Z) e = .ok out) :
    psf.bin 0 0 e.x e.y (W : ℚ) (H : ℚ) ≤ 1 ∧
    out = castQ (List.zipWith (List.zipWith (· + ·)) Z
      (safeRound2
        ((binnedGrid psf (0, W) (0, H) e.x e.y).map
          (List.map (· * ((e.photons : ℚ) * psf.bin 0 0 e.x e.y (W : ℚ) (H : ℚ)))))
        ((e.photons : ℚ) * psf.bin 0 0 e.x e.y (W : ℚ) (H : ℚ)))) := by
  unfold accumEmitter at hout
  split_ifs at hout with hrho
  · refine ⟨hrho, ?_⟩
    set d := (binnedGrid psf (0, W) (0, H) e.x e.y).map
      (List.map (· * ((e.photons : ℚ) * psf.bin 0 0 e.x e.y (W : ℚ) (H : ℚ)))) with hd
    set C := safeRound2 d ((e.photons : ℚ) * psf.bin 0 0 e.x e.y (W : ℚ) (H : ℚ)) with hC
    have hdlen : d.length = H := by
      rw [hd, List.length_map, length_binnedGrid]
      simp
    have hdrows : ∀ row ∈ d, row.length = W := by
      intro row hrow
      rw [hd] at hrow
      obtain ⟨g, hg, rfl⟩ := List.mem_map.mp hrow
      rw [List.length_map]
      simpa using rows_binnedGrid psf (0, W) (0, H) e.x e.y g hg
    have hshape := safeRound2_shape d
      ((e.photons : ℚ) * psf.bin 0 0 e.x e.y (W : ℚ) (H : ℚ))
    have hClen : C.length = H := by rw [hC, hshape.1, hdlen]
    have hCrows : ∀ row ∈ C, row.length = W := by
      refine rows_of_map_length_eq ?_ hdrows
      rw [hC]; exact hshape.2
    rw [addBroadcast_castQ_exact Z C W (by omega) (by omega) hZrows hCrows] at hout
    injection hout with h
    exact h.symm

/-- Successful `SimpleMicroscope.response` factored into the emitter fold
(over the `np.zeros((y_lim[1], x_lim[1]))` accumulator) and the final
unsigned cast. -/
theorem response_ok_fold (micro : SimpleMicroscope) (x_lim y_lim : ℕ × ℕ)
    (hx : x_lim.1 < x_lim.2) (hy : y_lim.1 < y_lim.2)
    (sr : List EmitterResponse) (img : ZImage)
    (h : micro.response x_lim y_lim sr = .ok img) :
    ∃ total : QImage,
      sr.foldlM (accumEmitter micro.psf x_lim y_lim)
        (List.replicate y_lim.2 (List.replicate x_lim.2 (0 : ℚ))) = .ok total ∧
      img = total.map (List.map fun q => u64cast (ratTrunc q)) := by
  unfold SimpleMicroscope.response at h
  rw [if_neg (by omega), if_neg (by omega)] at h
  cases hfold : sr.foldlM (accumEmitter micro.psf x_lim y_lim)
      (List.replicate y_lim.2 (List.replicate x_lim.2 (0 : ℚ))) with
  | error msg => rw [hfold] at h; simp at h
  | ok total =>
    rw [hfold] at h
    refine ⟨total, rfl, ?_⟩
    have h' : Except.ok (total.map (List.map fun q => u64cast (ratTrunc q))) =
        (Except.ok img : Except String ZImage) := h
    injection h' with h''
    exact h''.symm

/-- C10: for every valid `(x_lim, y_lim)` with `x_lim[0] < x_lim[1]` and
`y_lim[0] < y_lim[1]`, `SimpleMicroscope.response` applied to the empty
`SampleResponse` produced by `NullSample.response` (for any time, `dt` and
source) returns an image in which every pixel equals 0. -/
theorem empty_sample_gives_zero_image (micro : SimpleMicroscope)
    (x_lim y_lim : ℕ × ℕ) (t dt : ℚ) (source : ℚ → ℚ → ℚ)
    (hx : x_lim.1 < x_lim.2) (hy : y_lim.1 < y_lim.2) (img : ZImage)
    (h : micro.response x_lim y_lim (NullSample.response t dt source) = .ok img) :
    ∀ row ∈ img, ∀ v ∈ row, v = 0 := by
  obtain ⟨total, hfold, himg⟩ := response_ok_fold micro x_lim y_lim hx hy _ img h
  simp only [NullSample.response, List.foldlM_nil] at hfold
  injection hfold with hfold'
  subst hfold'
  intro row hrow v hv
  rw [himg] at hrow
  obtain ⟨trow, htrow, rfl⟩ := List.mem_map.mp hrow
  rw [List.eq_of_mem_replicate htrow] at hv
  obtain ⟨q, hq, rfl⟩ := List.mem_map.mp hv
  rw [List.eq_of_mem_replicate hq]
  rfl

/-- Witness for C10 at a concrete microscope, limits and source. -/
theorem empty_sample_gives_zero_image_witness :
    (SimpleMicroscope.mk ⟨fun _ _ _ _ _ _ => 0⟩).response (0, 1) (0, 1)
        (NullSample.response 0 1 fun _ _ => 0) = .ok [[0]] ∧
    (∀ row ∈ ([[0]] : ZImage), ∀ v ∈ row, v = 0) := by
  have h : (SimpleMicroscope.mk ⟨fun _ _ _ _ _ _ => 0⟩).response (0, 1) (0, 1)
      (NullSample.response 0 1 fun _ _ => 0) = .ok [[0]] := rfl
  exact ⟨h, empty_sample_gives_zero_image _ _ _ _ _ _ (by decide) (by decide) _ h⟩

/-- C2 (evaluation at the failing input): with `x_lim = (1, 3)`,
`y_lim = (0, 2)` and an empty sample response, `SimpleMicroscope.response`
returns the `np.zeros((y_lim[1], x_lim[1]))` image of shape `(2, 3)`, whereas
the claimed shape is `(y_lim[1]-y_lim[0], x_lim[1]-x_lim[0]) = (2, 2)`. -/
theorem response_shape_eval :
    (SimpleMicroscope.mk ⟨fun _ _ _ _ _ _ => 0⟩).response (1, 3) (0, 2) [] =
      .ok [[0, 0, 0], [0, 0, 0]] ∧
    (([[0, 0, 0], [0, 0, 0]] : ZImage).headD []).length = 3 ∧
    (3 : ℕ) ≠ 3 - 1 :=
  ⟨rfl, rfl, by decide⟩

/-- C5 (counterexample to the stated pixel choice): on `[2/5, 2/5, 6/5]`
with total 2, `k = 2 - (0+0+1) = 1 > 0` and `safe_round` adds `+1` to index
2 (value `6/5`, residual `1/5`) — the pixel with the *smallest* residual —
leaving index 0 (residual `2/5`, the largest) unadjusted.  The claim says the
`|k|` pixels with the largest residuals are adjusted. -/
theorem safe_round_adjusts_smallest_residual :
    safe_round [2/5, 2/5, 6/5] 2 = [0, 0, 2] ∧
    rint (6/5) = 1 ∧ resid (6/5) < resid (2/5) := by
  refine ⟨?_, ?_, ?_⟩ <;>
    norm_num [safe_round, rint, resid, argsort, argLE, argKey, applyAdjust,
      addAt, List.insertionSort, List.orderedInsert, Int.floor_eq_iff]

/-- Shorthand: the scaled per-pixel distribution of one emitter. -/
theorem flatten_scaled_grid (psf : PSFModel) (x_lim y_lim : ℕ × ℕ)
    (ex ey : ℚ) (c : ℚ) :
    ((binnedGrid psf x_lim y_lim ex ey).map (List.map (· * c))).flatten =
      (binnedGrid psf x_lim y_lim ex ey).flatten.map (· * c) :=
  (List.map_flatten _ _).symm

/-- C5 (amended): for a single emitter whose clipped PSF fraction over the
image rectangle equals 1, whose per-pixel bins are non-negative and sum to
1, and whose photon count is a representable non-negative integer, the sum
over all pixels of the optics output equals the photon count exactly —
`safe_round` restores the integer total. -/
theorem optics_single_emitter_sum (psf : PSFModel) (W H : ℕ)
    (e : EmitterResponse) (n : ℕ) (hW : 0 < W) (hH : 0 < H)
    (hph : e.photons = (n : ℤ))
    (hrho : psf.bin 0 0 e.x e.y (W : ℚ) (H : ℚ) = 1)
    (hsum : (binnedGrid psf (0, W) (0, H) e.x e.y).flatten.sum = 1)
    (hnn : ∀ q ∈ (binnedGrid psf (0, W) (0, H) e.x e.y).flatten, 0 ≤ q)
    (hbound : (n : ℤ) ≤ 2 ^ 64 - 2) (img : ZImage)
    (hresp : (SimpleMicroscope.mk psf).response (0, W) (0, H) [e] = .ok img) :
    isum img = n := by
  obtain ⟨total, hfold, himg⟩ :=
    response_ok_fold _ (0, W) (0, H) hW hH _ img hresp
  rw [List.foldlM_cons] at hfold
  cases haccum : accumEmitter psf (0, W) (0, H)
      (List.replicate (0, H).2 (List.replicate (0, W).2 (0 : ℚ))) e with
  | error msg => rw [haccum] at hfold; simp at hfold
  | ok out =>
    rw [haccum] at hfold
    have hout_total : out = total := by
      have h' : (List.foldlM (accumEmitter psf (0, W) (0, H)) out [] :
          Except String QImage) = .ok total := hfold
      simpa [pure, Except.pure] using h'
    subst hout_total
    -- the zero accumulator is the cast of the zero integer image
    rw [show (List.replicate (0, H).2 (List.replicate (0, W).2 (0 : ℚ))) =
        castQ (List.replicate H (List.replicate W (0 : ℤ))) from
      (castQ_replicate_zero H W).symm] at haccum
    obtain ⟨hρ1, hval⟩ := accumEmitter_castQ psf W H hW hH e _
      (by simp) (fun row hrow => by rw [List.eq_of_mem_replicate hrow]; simp)
      _ haccum
    -- abbreviations
    set tot : ℚ := (e.photons : ℚ) * psf.bin 0 0 e.x e.y (W : ℚ) (H : ℚ) with htotdef
    set d : QImage := (binnedGrid psf (0, W) (0, H) e.x e.y).map
      (List.map (· * tot)) with hddef
    set C : ZImage := safeRound2 d tot with hCdef
    have htot : tot = ((n : ℤ) : ℚ) := by rw [htotdef, hph, hrho, mul_one]
    have hdflat : d.flatten = (binnedGrid psf (0, W) (0, H) e.x e.y).flatten.map
        (· * tot) := by rw [hddef]; exact flatten_scaled_grid psf _ _ _ _ _
    have hdsum : d.flatten.sum = ((n : ℤ) : ℚ) := by
      rw [hdflat]
      have h1 := List.sum_map_mul_right
        (binnedGrid psf (0, W) (0, H) e.x e.y).flatten id tot
      simp only [id_eq, List.map_id] at h1
      rw [h1, hsum, one_mul, htot]
    -- sum of the safe-rounded contribution
    have hCflat : C.flatten = safe_round d.flatten tot := by
      rw [hCdef]; exact safeRound2_flatten d tot
    have hCsum : isum C = (n : ℤ) := by
      rw [isum_eq_sum_flatten, hCflat, htot]
      exact sum_safe_round_int d.flatten (n : ℤ) hdsum
    -- entry bounds of the contribution
    have hdnn : ∀ q ∈ d.flatten, 0 ≤ q := by
      intro q hq
      rw [hdflat] at hq
      obtain ⟨b, hb, rfl⟩ := List.mem_map.mp hq
      have h1 := hnn b hb
      have h2 : (0 : ℚ) ≤ tot := by rw [htot]; positivity
      positivity
    have hdle : ∀ q ∈ d.flatten, q ≤ ((n : ℤ) : ℚ) := by
      intro q hq
      rw [hdflat] at hq
      obtain ⟨b, hb, rfl⟩ := List.mem_map.mp hq
      have hb1 : b ≤ 1 := hsum ▸ List.single_le_sum hnn b hb
      have h2 : (0 : ℚ) ≤ tot := by rw [htot]; positivity
      calc b * tot ≤ 1 * tot := by nlinarith [hnn b hb]
        _ = ((n : ℤ) : ℚ) := by rw [one_mul, htot]
    have hCnn : ∀ z ∈ C.flatten, 0 ≤ z := by
      rw [hCflat]
      exact safe_round_nonneg d.flatten tot hdnn (le_of_eq (hdsum.trans htot.symm))
    have hCub : ∀ z ∈ C.flatten, z ≤ (n : ℤ) + 1 := by
      rw [hCflat]
      exact safe_round_upper d.flatten tot (n : ℤ) hdle
        (le_of_eq (hdsum.trans htot.symm))
    -- shapes for the elementwise sum
    have hshape := safeRound2_shape d tot
    have hdlen : d.length = H := by
      rw [hddef, List.length_map, length_binnedGrid]; simp
    have hdrows : d.map List.length = List.replicate H W := by
      rw [List.eq_replicate_iff]
      refine ⟨by rw [List.length_map, hdlen], ?_⟩
      intro x hx
      obtain ⟨row, hrow, rfl⟩ := List.mem_map.mp hx
      rw [hddef] at hrow
      obtain ⟨g, hg, rfl⟩ := List.mem_map.mp hrow
      rw [List.length_map]
      simpa using rows_binnedGrid psf (0, W) (0, H) e.x e.y g hg
    have hClen : C.length = H := by rw [hCdef, (safeRound2_shape d tot).1, hdlen]
    have hCrows : C.map List.length = List.replicate H W := by
      rw [hCdef, (safeRound2_shape d tot).2, hdrows]
    -- the accumulated image and its entries
    set Zacc := List.zipWith (List.zipWith (· + ·))
      (List.replicate H (List.replicate W (0 : ℤ))) C with hZdef
    have hZsum : isum Zacc = (n : ℤ) := by
      rw [hZdef, isum_zipWith _ _ (by simp [hClen])
        (by rw [hCrows]; simp [List.map_replicate]),
        isum_replicate_zero, hCsum, zero_add]
    have hZrange : ∀ v ∈ Zacc.flatten, 0 ≤ v ∧ v < 2 ^ 64 := by
      intro v hv
      rw [hZdef] at hv
      obtain ⟨x, y, ⟨hx, hy⟩, rfl⟩ := mem_flatten_zipWith hv
      rw [mem_flatten_replicate_zero hx, zero_add]
      exact ⟨hCnn y hy, by have := hCub y hy; omega⟩
    -- undo the final cast
    rw [himg, hval, castQ_u64_roundtrip Zacc hZrange, hZsum]

/-- Witness for C5's amended theorem: a 2×2 image whose four bins are `1/4`
each with 3 photons; `safe_round` turns `[3/4, 3/4, 3/4, 3/4]` into
`[0, 1, 1, 1]` and the pixel sum is exactly 3. -/
theorem optics_single_emitter_sum_witness :
    (SimpleMicroscope.mk ⟨fun _ _ _ _ dx _ => if dx = 1 then 1/4 else 1⟩).response
        (0, 2) (0, 2) [⟨0, 0, 0, 3, 1⟩] = .ok [[0, 1], [1, 1]] ∧
    isum [[0, 1], [1, 1]] = 3 := by
  have h : (SimpleMicroscope.mk
      ⟨fun _ _ _ _ dx _ => if dx = 1 then 1/4 else 1⟩).response
      (0, 2) (0, 2) [⟨0, 0, 0, 3, 1⟩] = .ok [[0, 1], [1, 1]] := by
    norm_num [SimpleMicroscope.response, List.foldlM, accumEmitter, binnedGrid,
      List.range', safeRound2, reshapeLike, safe_round, rint, argsort, argLE,
      argKey, resid, applyAdjust, addAt, castQ, addBroadcast, ratTrunc, u64cast,
      List.insertionSort, List.orderedInsert, Int.floor_eq_iff, List.zipWith,
      List.replicate, List.headD, List.head?, Rat.num_ofNat, Rat.den_ofNat]
  refine ⟨h, ?_⟩
  have := optics_single_emitter_sum
    ⟨fun _ _ _ _ dx _ => if dx = 1 then 1/4 else 1⟩ 2 2 ⟨0, 0, 0, 3, 1⟩ 3
    (by decide) (by decide) rfl (by norm_num)
    (by norm_num [binnedGrid, List.range'])
    (by norm_num [binnedGrid, List.range'])
    (by norm_num) [[0, 1], [1, 1]] h
  simpa using this

theorem rows_of_replicate_eq {Z : ZImage} {H W : ℕ}
    (h : Z.map List.length = List.replicate H W) :
    ∀ row ∈ Z, row.length = W := by
  intro row hrow
  have : row.length ∈ Z.map List.length := List.mem_map_of_mem List.length hrow
  rw [h] at this
  exact List.eq_of_mem_replicate this

theorem shape_zipWith_add (A B : ZImage) (H W : ℕ)
    (hA : A.length = H) (hB : B.length = H)
    (hAr : A.map List.length = List.replicate H W)
    (hBr : B.map List.length = List.replicate H W) :
    (List.zipWith (List.zipWith (· + ·)) A B).length = H ∧
    (List.zipWith (List.zipWith (· + ·)) A B).map List.length =
      List.replicate H W := by
  constructor
  · rw [List.length_zipWith, hA, hB, Nat.min_self]
  · have hArows := rows_of_replicate_eq hAr
    have hBrows := rows_of_replicate_eq hBr
    rw [List.eq_replicate_iff]
    constructor
    · rw [List.length_map, List.length_zipWith, hA, hB, Nat.min_self]
    · intro x hx
      obtain ⟨row, hrow, rfl⟩ := List.mem_map.mp hx
      obtain ⟨i, hi, hrow'⟩ := List.mem_iff_getElem.mp hrow
      have hiA : i < A.length := by
        rw [List.length_zipWith] at hi; omega
      have hiB : i < B.length := by
        rw [List.length_zipWith] at hi; omega
      have h1 : A[i].length = W := hArows A[i] (List.getElem_mem hiA)
      have h2 : B[i].length = W := hBrows B[i] (List.getElem_mem hiB)
      rw [← hrow', List.getElem_zipWith, List.length_zipWith, h1, h2]
      exact Nat.min_self W

/-- The emitter fold keeps the accumulator a non-negative integer image of
shape `(H, W)` and adds at most `Σ photons` to its pixel sum. -/
theorem foldl_accum_conserves (psf : PSFModel) (W H : ℕ)
    (hW : 0 < W) (hH : 0 < H) :
    ∀ (sr : List EmitterResponse) (Z : ZImage),
      Z.length = H → Z.map List.length = List.replicate H W →
      (∀ v ∈ Z.flatten, 0 ≤ v) →
      (∀ e ∈ sr, 0 ≤ e.photons ∧ 0 ≤ psf.bin 0 0 e.x e.y (W : ℚ) (H : ℚ) ∧
        (∀ q ∈ (binnedGrid psf (0, W) (0, H) e.x e.y).flatten, 0 ≤ q) ∧
        (binnedGrid psf (0, W) (0, H) e.x e.y).flatten.sum ≤ 1) →
      ∀ out, sr.foldlM (accumEmitter psf (0, W) (0, H)) (castQ Z) = .ok out →
      ∃ Zout : ZImage, out = castQ Zout ∧ Zout.length = H ∧
        Zout.map List.length = List.replicate H W ∧
        (∀ v ∈ Zout.flatten, 0 ≤ v) ∧
        isum Zout ≤ isum Z + (sr.map (fun e => e.photons)).sum := by
  intro sr
  induction sr with
  | nil =>
    intro Z hZlen hZrows hZnn _ out hfold
    refine ⟨Z, ?_, hZlen, hZrows, hZnn, by simp⟩
    have h' : (Except.ok (castQ Z) : Except String QImage) = .ok out := hfold
    injection h' with h''
    exact h''.symm
  | cons e rest ih =>
    intro Z hZlen hZrows hZnn hem out hfold
    rw [List.foldlM_cons] at hfold
    cases haccum : accumEmitter psf (0, W) (0, H) (castQ Z) e with
    | error msg =>
      rw [haccum] at hfold
      have h' : (Except.error msg : Except String QImage) = .ok out := hfold
      simp at h'
    | ok out1 =>
      rw [haccum] at hfold
      obtain ⟨hρ1, hval⟩ := accumEmitter_castQ psf W H hW hH e Z hZlen
        (rows_of_replicate_eq hZrows) out1 haccum
      obtain ⟨hph, hρ0, hbins, hbinsum⟩ := hem e (List.mem_cons_self e rest)
      set tot : ℚ := (e.photons : ℚ) * psf.bin 0 0 e.x e.y (W : ℚ) (H : ℚ)
        with htotdef
      set d : QImage := (binnedGrid psf (0, W) (0, H) e.x e.y).map
        (List.map (· * tot)) with hddef
      set C : ZImage := safeRound2 d tot with hCdef
      have htotnn : (0 : ℚ) ≤ tot := by
        rw [htotdef]
        have : (0:ℚ) ≤ (e.photons : ℚ) := by exact_mod_cast hph
        positivity
      have hdflat : d.flatten = (binnedGrid psf (0, W) (0, H) e.x e.y).flatten.map
          (· * tot) := by rw [hddef]; exact flatten_scaled_grid psf _ _ _ _ _
      have hdsum : d.flatten.sum ≤ tot := by
        rw [hdflat]
        have h1 := List.sum_map_mul_right
          (binnedGrid psf (0, W) (0, H) e.x e.y).flatten id tot
        simp only [id_eq, List.map_id] at h1
        rw [h1]
        nlinarith
      have hdnn : ∀ q ∈ d.flatten, 0 ≤ q := by
        intro q hq
        rw [hdflat] at hq
        obtain ⟨b, hb, rfl⟩ := List.mem_map.mp hq
        have := hbins b hb
        positivity
      have hCflat : C.flatten = safe_round d.flatten tot := by
        rw [hCdef]; exact safeRound2_flatten d tot
      have hCnn : ∀ z ∈ C.flatten, 0 ≤ z := by
        rw [hCflat]; exact safe_round_nonneg d.flatten tot hdnn hdsum
      have hCsum : isum C ≤ e.photons := by
        rw [isum_eq_sum_flatten, hCflat]
        have h1 := sum_safe_round_le d.flatten tot hdsum
        have h2 : ⌈tot⌉ ≤ e.photons := by
          rw [Int.ceil_le, htotdef]
          have h3 : (0:ℚ) ≤ (e.photons : ℚ) := by exact_mod_cast hph
          nlinarith
        omega
      -- shapes of the per-emitter contribution
      have hdlen : d.length = H := by
        rw [hddef, List.length_map, length_binnedGrid]; simp
      have hdrows : d.map List.length = List.replicate H W := by
        rw [List.eq_replicate_iff]
        refine ⟨by rw [List.length_map, hdlen], ?_⟩
        intro x hx
        obtain ⟨row, hrow, rfl⟩ := List.mem_map.mp hx
        rw [hddef] at hrow
        obtain ⟨g, hg, rfl⟩ := List.mem_map.mp hrow
        rw [List.length_map]
        simpa using rows_binnedGrid psf (0, W) (0, H) e.x e.y g hg
      have hClen : C.length = H := by rw [hCdef, (safeRound2_shape d tot).1, hdlen]
      have hCrows : C.map List.length = List.replicate H W := by
        rw [hCdef, (safeRound2_shape d tot).2, hdrows]
      -- the new accumulator
      obtain ⟨hZ1len, hZ1rows⟩ := shape_zipWith_add Z C H W hZlen hClen hZrows hCrows
      have hZ1nn : ∀ v ∈ (List.zipWith (List.zipWith (· + ·)) Z C).flatten, 0 ≤ v := by
        intro v hv
        obtain ⟨x, y, ⟨hx, hy⟩, rfl⟩ := mem_flatten_zipWith hv
        have := hZnn x hx
        have := hCnn y hy
        omega
      have hZ1sum : isum (List.zipWith (List.zipWith (· + ·)) Z C) =
          isum Z + isum C :=
        isum_zipWith Z C (by omega) (by rw [hZrows, hCrows])
      rw [hval] at hfold
      obtain ⟨Zout, ho, hl, hr, hn, hs⟩ := ih _ hZ1len hZ1rows hZ1nn
        (fun e' he' => hem e' (List.mem_cons_of_mem e he')) out hfold
      refine ⟨Zout, ho, hl, hr, hn, ?_⟩
      rw [hZ1sum] at hs
      have : ((e :: rest).map (fun e => e.photons)).sum =
          e.photons + (rest.map (fun e => e.photons)).sum := by simp
      omega

/-- C6 (amended): for zero-based limits `x_lim = (0, W)`, `y_lim = (0, H)`
(the shapes for which the misallocated accumulator lines up with the binned
grid), emitters with non-negative integer photon counts, non-negative PSF
bins summing to at most 1, and a representable photon total, the sum of all
pixels of the optics output is at most the sum of the emitters' photons. -/
theorem optics_photon_conservation (psf : PSFModel) (W H : ℕ)
    (hW : 0 < W) (hH : 0 < H) (sr : List EmitterResponse)
    (hem : ∀ e ∈ sr, 0 ≤ e.photons ∧ 0 ≤ psf.bin 0 0 e.x e.y (W : ℚ) (H : ℚ) ∧
      (∀ q ∈ (binnedGrid psf (0, W) (0, H) e.x e.y).flatten, 0 ≤ q) ∧
      (binnedGrid psf (0, W) (0, H) e.x e.y).flatten.sum ≤ 1)
    (hbound : (sr.map (fun e => e.photons)).sum < 2 ^ 64) (img : ZImage)
    (hresp : (SimpleMicroscope.mk psf).response (0, W) (0, H) sr = .ok img) :
    isum img ≤ (sr.map (fun e => e.photons)).sum := by
  obtain ⟨total, hfold, himg⟩ :=
    response_ok_fold _ (0, W) (0, H) hW hH sr img hresp
  rw [show (List.replicate (0, H).2 (List.replicate (0, W).2 (0 : ℚ))) =
      castQ (List.replicate H (List.replicate W (0 : ℤ))) from
    (castQ_replicate_zero H W).symm] at hfold
  obtain ⟨Zout, ho, _, _, hnn, hsum⟩ :=
    foldl_accum_conserves psf W H hW hH sr
      (List.replicate H (List.replicate W (0 : ℤ))) (by simp)
      (by simp [List.map_replicate]) (fun v hv => by
        rw [mem_flatten_replicate_zero hv]) hem total hfold
  rw [isum_replicate_zero, zero_add] at hsum
  have hrange : ∀ v ∈ Zout.flatten, 0 ≤ v ∧ v < 2 ^ 64 := by
    intro v hv
    refine ⟨hnn v hv, ?_⟩
    have h1 : v ≤ Zout.flatten.sum := List.single_le_sum hnn v hv
    rw [← isum_eq_sum_flatten] at h1
    omega
  rw [himg, ho, castQ_u64_roundtrip Zout hrange]
  exact hsum

/-- C6 (counterexample to the claim as stated): with `y_lim = (1, 2)` the
accumulator is allocated as `np.zeros((2, 2))` while the binned image has
shape `(1, 2)`; the `+=` broadcasts the single row into both rows, so a
2-photon emitter whose PSF sums to 1 produces an output summing to 4 > 2. -/
theorem optics_conservation_counterexample :
    (SimpleMicroscope.mk ⟨fun _ _ _ _ dx _ => if dx = 1 then 1/2 else 1⟩).response
        (0, 2) (1, 2) [⟨0, 0, 0, 2, 1⟩] = .ok [[1, 1], [1, 1]] ∧
    isum [[1, 1], [1, 1]] = 4 ∧
    ¬ (isum [[1, 1], [1, 1]] ≤
        (([⟨0, 0, 0, 2, 1⟩] : List EmitterResponse).map
          (fun e => e.photons)).sum) := by
  refine ⟨?_, by norm_num [isum], by norm_num [isum]⟩
  norm_num [SimpleMicroscope.response, List.foldlM, accumEmitter, binnedGrid,
    List.range', safeRound2, reshapeLike, safe_round, rint, argsort, argLE,
    argKey, resid, applyAdjust, addAt, castQ, addBroadcast, ratTrunc, u64cast,
    List.insertionSort, List.orderedInsert, Int.floor_eq_iff, List.zipWith,
    List.replicate, List.headD, List.head?, Rat.num_ofNat, Rat.den_ofNat]

/-- Witness for C6's amended theorem: a 2×2 image with four `1/4` bins and 5
photons; the output pixel sum is 5 ≤ 5. -/
theorem optics_photon_conservation_witness :
    (SimpleMicroscope.mk ⟨fun _ _ _ _ dx _ => if dx = 1 then 1/4 else 1⟩).response
        (0, 2) (0, 2) [⟨0, 0, 0, 5, 1⟩] = .ok [[2, 1], [1, 1]] ∧
    isum [[2, 1], [1, 1]] ≤
      (([⟨0, 0, 0, 5, 1⟩] : List EmitterResponse).map (fun e => e.photons)).sum := by
  have h : (SimpleMicroscope.mk
      ⟨fun _ _ _ _ dx _ => if dx = 1 then 1/4 else 1⟩).response
      (0, 2) (0, 2) [⟨0, 0, 0, 5, 1⟩] = .ok [[2, 1], [1, 1]] := by
    norm_num [SimpleMicroscope.response, List.foldlM, accumEmitter, binnedGrid,
      List.range', safeRound2, reshapeLike, safe_round, rint, argsort, argLE,
      argKey, resid, applyAdjust, addAt, castQ, addBroadcast, ratTrunc, u64cast,
      List.insertionSort, List.orderedInsert, Int.floor_eq_iff, List.zipWith,
      List.replicate, List.headD, List.head?, Rat.num_ofNat, Rat.den_ofNat]
  refine ⟨h, ?_⟩
  exact optics_photon_conservation ⟨fun _ _ _ _ dx _ => if dx = 1 then 1/4 else 1⟩
    2 2 (by decide) (by decide) [⟨0, 0, 0, 5, 1⟩]
    (by
      intro e he
      simp only [List.mem_singleton] at he
      subst he
      refine ⟨by norm_num, by norm_num, ?_, ?_⟩ <;>
        norm_num [binnedGrid, List.range'])
    (by norm_num) [[2, 1], [1, 1]] h

/-! ### StateMachine: the stopped-state invariant -/

theorem computeNextEvent_of_stopped {m : StateMachine} {p : List ℚ} {t : ℚ}
    {ev : NextEvent} {st : Bool} {calls : ℕ}
    (h : computeNextEvent m p t = .ok (ev, st, calls))
    (hmem : m.current_state ∈ stoppedStatesL m.rate_constants m.rate_coefficients) :
    st = true ∧ ev.time = ⊤ := by
  unfold computeNextEvent at h
  rw [if_pos hmem, Except.ok.injEq, Prod.mk.injEq, Prod.mk.injEq] at h
  exact ⟨h.2.1.symm, by rw [← h.1]⟩

theorem step_inv {m : StateMachine} {p : List ℚ} {t : ℚ} {m' : StateMachine}
    (h : m.step p t = .ok m') :
    m'.current_state ∈ stoppedStatesL m'.rate_constants m'.rate_coefficients →
      m'.stopped = true ∧ m'.next_event.time = ⊤ := by
  intro hmem
  unfold StateMachine.step at h
  cases hc : computeNextEvent { m with current_state := m.next_event.to_state } p t with
  | error msg =>
    rw [hc] at h
    have h' : (Except.error msg : Except String StateMachine) = .ok m' := h
    simp at h'
  | ok res =>
    obtain ⟨ev, st, calls⟩ := res
    rw [hc] at h
    have h' : (Except.ok (⟨m.next_event.to_state, m.ctrl, ev, m.rate_constants, m.rate_coefficients, st, m.rng, calls⟩ : StateMachine) : Except String StateMachine) = .ok m' := h
    injection h' with h''
    subst h''
    obtain ⟨h1, h2⟩ := computeNextEvent_of_stopped hc (by
      simpa using hmem)
    exact ⟨h1, h2⟩

theorem update_inv {m : StateMachine} {p : List ℚ} {t : ℚ} {m' : StateMachine}
    (hI : m.current_state ∈ stoppedStatesL m.rate_constants m.rate_coefficients →
      m.stopped = true ∧ m.next_event.time = ⊤)
    (h : m.update p t = .ok m') :
    m'.current_state ∈ stoppedStatesL m'.rate_constants m'.rate_coefficients →
      m'.stopped = true ∧ m'.next_event.time = ⊤ := by
  unfold StateMachine.update at h
  split_ifs at h with hp
  · injection h with h'
    subst h'
    exact hI
  · cases hc : computeNextEvent m p t with
    | error msg =>
      rw [hc] at h
      have h' : (Except.error msg : Except String StateMachine) = .ok m' := h
      simp at h'
    | ok res =>
      obtain ⟨ev, st, calls⟩ := res
      rw [hc] at h
      have h' : (Except.ok (⟨m.current_state, m.ctrl, ev, m.rate_constants, m.rate_coefficients, st, m.rng, calls⟩ : StateMachine) : Except String StateMachine) = .ok m' := h
      injection h' with h''
      subst h''
      intro hmem
      exact computeNextEvent_of_stopped hc (by simpa using hmem)

theorem collectLoop_inv {p : List ℚ} {tEnd : ℚ} :
    ∀ (fuel : ℕ) (m : StateMachine) (acc evs : List Event) (m' : StateMachine),
      (m.current_state ∈ stoppedStatesL m.rate_constants m.rate_coefficients →
        m.stopped = true ∧ m.next_event.time = ⊤) →
      collectLoop p tEnd fuel m acc = .ok (evs, m') →
      (m'.current_state ∈ stoppedStatesL m'.rate_constants m'.rate_coefficients →
        m'.stopped = true ∧ m'.next_event.time = ⊤) := by
  intro fuel
  induction fuel with
  | zero =>
    intro m acc evs m' hI h
    unfold collectLoop at h
    have h' : (Except.ok (acc.reverse, m) :
        Except String (List Event × StateMachine)) = .ok (evs, m') := h
    rw [Except.ok.injEq, Prod.mk.injEq] at h'
    rw [← h'.2]
    exact hI
  | succ fuel ih =>
    intro m acc evs m' hI h
    unfold collectLoop at h
    split at h
    · -- pending event at infinity: the loop does not run
      rw [Except.ok.injEq, Prod.mk.injEq] at h
      rw [← h.2]
      exact hI
    · rename_i t htime
      split_ifs at h with hlt
      · cases hstep : m.step p t with
        | error msg =>
          rw [hstep] at h
          have h' : (Except.error msg :
              Except String (List Event × StateMachine)) = .ok (evs, m') := h
          simp at h'
        | ok m1 =>
          rw [hstep] at h
          have hI1 := step_inv hstep
          have h2 : (if m1.stopped = true then
                Except.ok ((⟨t, m.next_event.from_state,
                  m.next_event.to_state⟩ :: acc).reverse, m1)
              else collectLoop p tEnd fuel m1
                (⟨t, m.next_event.from_state, m.next_event.to_state⟩ :: acc)) =
              .ok (evs, m') := h
          by_cases hstop : m1.stopped
          · rw [if_pos hstop] at h2
            rw [Except.ok.injEq, Prod.mk.injEq] at h2
            rw [← h2.2]
            exact hI1
          · rw [if_neg hstop] at h2
            exact ih m1 _ evs m' hI1 h2
      · rw [Except.ok.injEq, Prod.mk.injEq] at h
        rw [← h.2]
        exact hI

theorem collect_inv {m : StateMachine} {p : List ℚ} {time dt : ℚ} {fuel : ℕ}
    {evs : List Event} {m' : StateMachine}
    (hI : m.current_state ∈ stoppedStatesL m.rate_constants m.rate_coefficients →
      m.stopped = true ∧ m.next_event.time = ⊤)
    (h : m.collect p time dt fuel = .ok (evs, m')) :
    m'.current_state ∈ stoppedStatesL m'.rate_constants m'.rate_coefficients →
      m'.stopped = true ∧ m'.next_event.time = ⊤ := by
  unfold StateMachine.collect at h
  split_ifs at h with hstop
  · have h' : (Except.ok ([], m) :
        Except String (List Event × StateMachine)) = .ok (evs, m') := h
    rw [Except.ok.injEq, Prod.mk.injEq] at h'
    rw [← h'.2]
    exact hI
  · cases hup : m.update p time with
    | error msg =>
      rw [hup] at h
      have h' : (Except.error msg :
          Except String (List Event × StateMachine)) = .ok (evs, m') := h
      simp at h'
    | ok m1 =>
      rw [hup] at h
      exact collectLoop_inv fuel m1 [] evs m' (update_inv hI hup) h

theorem mk_inv {current : ℕ} {p : List ℚ} {K : List (List ℚ)}
    {C : List (List (List (List ℚ)))} {rng : ℕ → ℕ → ℚ} {m : StateMachine}
    (h : mkStateMachine current p K C rng = .ok m) :
    m.current_state ∈ stoppedStatesL m.rate_constants m.rate_coefficients →
      m.stopped = true ∧ m.next_event.time = ⊤ := by
  unfold mkStateMachine at h
  split_ifs at h with hlen
  cases hc : computeNextEvent ⟨current, p, ⟨⊤, current, current⟩, K, C, false, rng, 0⟩ p 0 with
  | error msg =>
    rw [hc] at h
    have h' : (Except.error msg : Except String StateMachine) = .ok m := h
    simp at h'
  | ok res =>
    obtain ⟨ev, st, calls⟩ := res
    rw [hc] at h
    have h' : (Except.ok (⟨current, p, ev, K, C, st, rng, calls⟩ : StateMachine) : Except String StateMachine) = .ok m := h
    injection h' with h''
    subst h''
    intro hmem
    exact computeNextEvent_of_stopped hc (by simpa using hmem)

/-- Every machine reachable through the public API satisfies the stopped
invariant. -/
theorem reachable_inv {m : StateMachine} (h : Reachable m) :
    m.current_state ∈ stoppedStatesL m.rate_constants m.rate_coefficients →
      m.stopped = true ∧ m.next_event.time = ⊤ := by
  induction h with
  | init current p K C rng m hmk => exact mk_inv hmk
  | step m p time dt fuel evs m' _ hcol ih => exact collect_inv ih hcol

/-- C8: for every API-reachable `StateMachine` whose current state has an
identically zero outgoing row in `rate_constants` and in every
`rate_coefficients` slice (a stopped state), any call to `collect` returns
the empty list with the machine unchanged, the `stopped` flag is true, and
the pending `next_event` has infinite time. -/
theorem stopped_state_collect (m : StateMachine) (p : List ℚ) (time dt : ℚ)
    (fuel : ℕ) (hreach : Reachable m)
    (hrow : m.current_state ∈ stoppedStatesL m.rate_constants m.rate_coefficients) :
    m.collect p time dt fuel = .ok ([], m) ∧ m.stopped = true ∧
      m.next_event.time = ⊤ := by
  obtain ⟨hst, htime⟩ := reachable_inv hreach hrow
  refine ⟨?_, hst, htime⟩
  unfold StateMachine.collect
  rw [if_pos hst]

/-- Witness for C8: a freshly constructed one-state machine with an all-zero
rate row is stopped and `collect` returns nothing. -/
theorem stopped_state_collect_witness :
    StateMachine.collect
        ⟨0, [], ⟨⊤, 0, 0⟩, [[0]], [], true, fun _ _ => 0, 0⟩ [] 0 1 5 =
      .ok ([], ⟨0, [], ⟨⊤, 0, 0⟩, [[0]], [], true, fun _ _ => 0, 0⟩) ∧
    (⟨0, [], ⟨⊤, 0, 0⟩, [[0]], [], true, fun _ _ => 0, 0⟩ :
      StateMachine).stopped = true ∧
    (⟨0, [], ⟨⊤, 0, 0⟩, [[0]], [], true, fun _ _ => 0, 0⟩ :
      StateMachine).next_event.time = ⊤ := by
  have hmk : mkStateMachine 0 [] [[0]] [] (fun _ _ => 0) =
      .ok ⟨0, [], ⟨⊤, 0, 0⟩, [[0]], [], true, fun _ _ => 0, 0⟩ := by
    norm_num [mkStateMachine, computeNextEvent, stoppedStatesL, isStoppedState,
      List.range, List.filter]
    rfl
  exact stopped_state_collect _ [] 0 1 5
    (Reachable.init 0 [] [[0]] [] (fun _ _ => 0) _ hmk)
    (by norm_num [stoppedStatesL, isStoppedState, List.range, List.filter])

set_option maxHeartbeats 1600000 in
/-- C7 (evaluation at the failing input): the machine is constructed with
control vector `[0]`.  After `collect([1], 0, 1)` the stored
`_control_params` is still `[0]` (the code never reassigns it), not `[1]` as
claimed, and a second `collect([1], 1, 1)` recomputes the pending event
again — the draw counter reaches 3 (one draw at construction plus one per
call) although `p` equals the vector supplied to the most recent call. -/
theorem collect_stale_control_params :
    ((mkStateMachine 0 [0] [[0, 1], [0, 0]] [[[[0, 0], [0, 0]]]]
        (fun _ _ => 10)).bind (fun m =>
      (m.collect [1] 0 1 3).bind (fun r =>
        (r.2.collect [1] 1 1 3).map (fun r2 =>
          (r.2.ctrl, r2.2.ctrl, r2.2.rngCalls))))) = .ok ([0], [0], 3) ∧
    ([0] : List ℚ) ≠ [1] := by
  constructor
  · norm_num [mkStateMachine, computeNextEvent, computeRates, stoppedStatesL,
      isStoppedState, StateMachine.collect, StateMachine.update,
      StateMachine.step, collectLoop, listMinW, argminW, List.range,
      List.range.loop, List.filter_cons, List.mapIdx_cons, List.findIdx_cons,
      Except.bind, Except.map, Except.pure, Except.instMonad, min_def, le_top,
      top_le_iff, WithTop.coe_ne_top, ← WithTop.coe_add]
  · intro hc
    have : (0 : ℚ) = 1 := by
      have := List.head_eq_of_cons_eq hc
      exact this
    norm_num at this

/-- C1 (evaluation at the failing input): a fluorophore with
`cross_section = 2`, `quantum_yield = 1`, `fluorescence_lifetime = 1/2` at
irradiance 1 has `R(I) = 1`; its state machine is stopped in the
fluorescence state so the on-fraction is 1.  With `dt = 3` the code emits
`round(1 · R(I)) = 1` photon, whereas the claimed formula
`round(on_fraction · R(I) · dt)` gives 3; no `dt` factor appears in the
source. -/
theorem fluorophore_response_missing_dt :
    ((Fluorophore.response
        ⟨0, 0, 0, 2, 1/2, 0, 1,
          ⟨0, [1], ⟨⊤, 0, 0⟩, [[0]], [[[[0]]]], true, fun _ _ => 0, 0⟩, 1⟩
        0 3 (fun _ _ => 1) 5).map (fun r => r.1.photons)) = .ok 1 ∧
    rint ((1 : ℚ) *
      Fluorophore.compute_photon_rate
        ⟨0, 0, 0, 2, 1/2, 0, 1,
          ⟨0, [1], ⟨⊤, 0, 0⟩, [[0]], [[[[0]]]], true, fun _ _ => 0, 0⟩, 1⟩ 1 * 3) =
      3 ∧
    (1 : ℤ) ≠ 3 := by
  refine ⟨?_, ?_, by decide⟩
  · norm_num [Fluorophore.response, StateMachine.collect,
      Fluorophore.compute_on_fraction, Fluorophore.compute_photon_rate, rint,
      Int.floor_eq_iff, Except.bind, Except.map, Except.pure,
      Except.instMonad]
  · norm_num [Fluorophore.compute_photon_rate, rint, Int.floor_eq_iff]

/-- C3 (evaluation at the failing input): with `time = 1`, `dt = 1`,
`fluorescence_state = 0` and a single transition out of state 0 at
`t = 3/2`, the interval decomposition is `[(1/2, 0), (1/2, 1)]`; the code
divides the matching length `1/2` by `time + dt = 2` giving `1/4`, while the
claim divides by `dt` giving `1/2`. -/
theorem on_fraction_divides_by_time_plus_dt :
    Fluorophore.compute_on_fraction
      ⟨0, 0, 0, 2, 1/2, 0, 1,
        ⟨0, [1], ⟨⊤, 0, 0⟩, [[0]], [[[[0]]]], true, fun _ _ => 0, 0⟩, 1⟩
      0 1 1 [⟨3/2, 0, 1⟩] = 1/4 ∧
    ((((intervalsOf (1 + 1) 1 [⟨3/2, 0, 1⟩]).filter
        (fun iv => iv.2 == 0)).map Prod.fst).sum) / 1 = 1/2 ∧
    (1/4 : ℚ) ≠ 1/2 := by
  refine ⟨?_, ?_, by norm_num⟩ <;>
    norm_num [Fluorophore.compute_on_fraction, intervalsOf, List.filter_cons]

/-- C4 (evaluation at the failing input): an 8-bit camera with baseline 0
and sensitivity 1, no photon input, and a read-noise draw of −5 produces
ADU −5; the code clamps only values above 255, so the unsigned cast wraps
−5 to 251 instead of clamping to 0 as the claim requires. -/
theorem detector_negative_adu_wraps :
    SimpleCMOSCamera.response ⟨0, .eight, 1, (1, 1), 1, 1⟩ none
      (fun _ _ => 0) (fun _ _ => -5) = .ok [[251]] ∧
    (-5 : ℤ) % 2 ^ 8 = 251 ∧ (251 : ℤ) ≠ 0 := by
  refine ⟨?_, by decide, by decide⟩
  have h5 : ratTrunc (-5 : ℚ) = -5 := by
    rw [show (-5 : ℚ) = ((-5 : ℤ) : ℚ) by norm_num]
    exact ratTrunc_intCast _
  norm_num [SimpleCMOSCamera.response, BitDepth.bits, BitDepth.containerBits,
    List.range, List.range.loop, Except.bind, Except.map, Except.pure,
    Except.instMonad, Function.comp, h5]

/-- A single step never touches the `backup` flag or the snapshot. -/
theorem runSteps_preserves {D O S Src P A B F : Type}
    (env : SimEnv D O S Src P A B F) :
    ∀ (n : ℕ) (sim : Simulator D O S Src P) (acc : List F),
      (runSteps env n sim acc).2.backup = sim.backup ∧
        (runSteps env n sim acc).2.snapshot = sim.snapshot
  | 0, _, _ => ⟨rfl, rfl⟩
  | n + 1, sim, acc => by
    have hred : runSteps env (n + 1) sim acc =
        runSteps env n (stepSim env sim).2 ((stepSim env sim).1.2.2 :: acc) :=
      rfl
    rw [hred]
    exact ⟨(runSteps_preserves env n _ _).1.trans rfl,
      (runSteps_preserves env n _ _).2.trans rfl⟩

/-- C9: a simulator built with `backup = true` that runs, resets and runs
again under the same seeded generator produces the identical frame stack:
`reset` restores every owned field (including the generator position) from
the snapshot taken at construction, so the second run starts from the very
simulator the first run started from; and `reset` on a simulator built with
`backup = false` fails with the runtime error instead of modifying state. -/
theorem simulator_reset_roundtrip {D O S Src P A B F : Type}
    (env : SimEnv D O S Src P A B F) (w : SimOwned D O S Src P)
    {fr1 fr2 : List F} {s1 s2 s3 : Simulator D O S Src P}
    (h1 : runSim env (mkSimulator w true) false = .ok (fr1, s1))
    (h2 : resetSim s1 = .ok s2)
    (h3 : runSim env s2 false = .ok (fr2, s3)) :
    fr2 = fr1 ∧
      resetSim (mkSimulator w false) =
        .error "The simulator instance cannot be reset." := by
  have e1 : runSim env (mkSimulator w true) false =
      .ok ((runSteps env w.num_measurements (mkSimulator w true) []).1,
        (runSteps env w.num_measurements (mkSimulator w true) []).2) := rfl
  rw [e1] at h1
  injection h1 with h1'
  rw [Prod.mk.injEq] at h1'
  obtain ⟨hf1, hs1⟩ := h1'
  have hb : s1.backup = true := by
    rw [← hs1]; exact (runSteps_preserves env _ _ _).1
  have hsn : s1.snapshot = some w := by
    rw [← hs1]; exact (runSteps_preserves env _ _ _).2
  have e2 : resetSim s1 = .ok ⟨w, true, some w⟩ := by
    simp [resetSim, hb, hsn]
  rw [e2] at h2
  injection h2 with h2'
  subst h2'
  have hmk : (⟨w, true, some w⟩ : Simulator D O S Src P) =
      mkSimulator w true := rfl
  rw [hmk, e1] at h3
  injection h3 with h3'
  rw [Prod.mk.injEq] at h3'
  exact ⟨h3'.1.symm.trans hf1, rfl⟩

/-- C9 witness: in the unit environment with one measurement, the first run
returns the frame stack `[1]` read at generator position 1 (the sample
consumed position 0), reset restores the initial owned state, and the second
run returns the same stack. -/
theorem simulator_reset_roundtrip_witness :
    ([1] : List ℕ) = [1] ∧
      resetSim (mkSimulator simOwnedUnit false) =
        .error "The simulator instance cannot be reset." := by
  have pf1 : runSim simEnvUnit (mkSimulator simOwnedUnit true) false =
      .ok ([1], ⟨⟨(), (), (), (), 1, 1, (0, 32), (0, 32), 1, [], [], 2⟩, true,
        some simOwnedUnit⟩) := by
    norm_num [runSim, runSteps, stepSim, mkSimulator, simEnvUnit, simOwnedUnit]
  have pf2 : resetSim
      (⟨⟨(), (), (), (), 1, 1, (0, 32), (0, 32), 1, [], [], 2⟩, true,
        some simOwnedUnit⟩ : Simulator Unit Unit Unit Unit Unit) =
      .ok ⟨simOwnedUnit, true, some simOwnedUnit⟩ := rfl
  have pf3 : runSim simEnvUnit
      (⟨simOwnedUnit, true, some simOwnedUnit⟩ :
        Simulator Unit Unit Unit Unit Unit) false =
      .ok ([1], ⟨⟨(), (), (), (), 1, 1, (0, 32), (0, 32), 1, [], [], 2⟩, true,
        some simOwnedUnit⟩) := by
    norm_num [runSim, runSteps, stepSim, simEnvUnit, simOwnedUnit]
  exact simulator_reset_roundtrip simEnvUnit simOwnedUnit pf1 pf2 pf3

end Imajin
